import Mathlib

/-!
# Verification of the PDF object-graph mutation engine

A shallow embedding of `src/tauri/src-tauri/src/pdf.rs`: the merge engine,
watermark heuristic remover, page deletion engine, image-page composer and
metadata inspector, over the object-graph data model exposed by the external
PDF codec (lopdf).  The codec itself (loading, saving, the page-tree
accessor `get_pages`, per-page deletion) is an external collaborator; its
object-graph operations are modelled from the specification's data model
(§3) where noted.  File paths and on-disk I/O are abstracted away: every
operation is embedded as a function on in-memory `Document` values.
-/

namespace PdfEngine

/-- An object identifier: (object number, generation number), as in lopdf's
`ObjectId = (u32, u16)`. -/
abbrev ObjectId := Nat × Nat

/-- `u32` modulus: lopdf's `max_id` is a `u32`, so minting a fresh id wraps
modulo `2^32`. -/
def U32 : Nat := 4294967296

/-- Byte strings (PDF names, strings, dictionary keys), as lists of byte
values. -/
abbrev Bytes := List Nat

/-- Encode a Lean string literal as the byte string of its characters. -/
def strBytes (s : String) : Bytes := s.data.map Char.toNat

mutual

/-- The PDF object tagged union (lopdf's `Object`).  The `real` payload is
idealised as a rational; no engine operation inspects it. -/
inductive Object where
  | null
  | boolean (b : Bool)
  | integer (i : Int)
  | real (r : ℚ)
  | string (s : Bytes)
  | name (n : Bytes)
  | array (xs : ObjList)
  | dictionary (d : Dict)
  | stream (d : Dict) (payload : Bytes)
  | reference (id : ObjectId)

/-- Contents of a PDF array: an ordered sequence of objects. -/
inductive ObjList where
  | nil
  | cons (o : Object) (rest : ObjList)

/-- A PDF dictionary: ordered key/value entries (lopdf's `Dictionary`
preserves insertion order). -/
inductive Dict where
  | nil
  | cons (k : Bytes) (v : Object) (rest : Dict)

end

/-- Append of PDF array contents. -/
def ObjList.app : ObjList → ObjList → ObjList
  | .nil, ys => ys
  | .cons x xs, ys => .cons x (ObjList.app xs ys)

instance : Append ObjList := ⟨ObjList.app⟩

/-- Build array contents from a Lean list. -/
def ObjList.ofList : List Object → ObjList
  | [] => .nil
  | o :: os => .cons o (ObjList.ofList os)

/-- `Dictionary::get`: first entry with the given key. -/
def Dict.get (d : Dict) (k : Bytes) : Option Object :=
  match d with
  | .nil => none
  | .cons k' v rest => if k' = k then some v else rest.get k

/-- `Dictionary::set`: replace the value at an existing key in place, or
append a new entry. -/
def Dict.set (d : Dict) (k : Bytes) (v : Object) : Dict :=
  match d with
  | .nil => .cons k v .nil
  | .cons k' v' rest => if k' = k then .cons k' v rest else .cons k' v' (rest.set k v)

/-- Association-list lookup (first match), the model of `BTreeMap::get` /
`HashMap::get`. -/
def alookup {α : Type} (l : List (ObjectId × α)) (id : ObjectId) : Option α :=
  match l with
  | [] => none
  | (k, v) :: rest => if k = id then some v else alookup rest id

/-- Key-membership test. -/
def akeyMem {α : Type} (l : List (ObjectId × α)) (id : ObjectId) : Bool :=
  (alookup l id).isSome

/-- `BTreeMap::insert` / `HashMap::insert`: replace the value at an existing
key in place, or append a new entry. -/
def ains {α : Type} (l : List (ObjectId × α)) (id : ObjectId) (v : α) :
    List (ObjectId × α) :=
  match l with
  | [] => [(id, v)]
  | (k, v') :: rest => if k = id then (k, v) :: rest else (k, v') :: ains rest id v

/-- Assignment through `get_mut`: update the value at an existing key,
leaving the map unchanged when the key is absent. -/
def aset {α : Type} (l : List (ObjectId × α)) (id : ObjectId) (v : α) :
    List (ObjectId × α) :=
  match l with
  | [] => []
  | (k, v') :: rest => if k = id then (k, v) :: rest else (k, v') :: aset rest id v

/-- `BTreeMap::remove`. -/
def aremove {α : Type} (l : List (ObjectId × α)) (id : ObjectId) :
    List (ObjectId × α) :=
  match l with
  | [] => []
  | (k, v) :: rest => if k = id then rest else (k, v) :: aremove rest id

/-- The keys of an association list, in order. -/
def akeys {α : Type} (l : List (ObjectId × α)) : List ObjectId := l.map Prod.fst

/-- The object arena of a document: ordered (id, object) entries, the model
of lopdf's `BTreeMap<ObjectId, Object>` (list order standing for the map's
iteration order). -/
abbrev OMap := List (ObjectId × Object)

/-- The remap table built while merging: old source id to fresh id. -/
abbrev IdMap := List (ObjectId × ObjectId)

/-- A loaded PDF document: object arena, trailer dictionary, and the
highest allocated object number. -/
structure Document where
  objects : OMap
  trailer : Dict
  maxId : Nat

/-- Dictionary key constants used by the engine. -/
def bRoot : Bytes := strBytes "Root"

def bPages : Bytes := strBytes "Pages"

def bPage : Bytes := strBytes "Page"

def bKids : Bytes := strBytes "Kids"

def bCount : Bytes := strBytes "Count"

def bType : Bytes := strBytes "Type"

def bAnnots : Bytes := strBytes "Annots"

def bSubtype : Bytes := strBytes "Subtype"

def bAnnot : Bytes := strBytes "Annot"

def bName : Bytes := strBytes "Name"

def bInfo : Bytes := strBytes "Info"

def bTitle : Bytes := strBytes "Title"

def bAuthor : Bytes := strBytes "Author"

def bWatermark : Bytes := strBytes "Watermark"

mutual

/-- All object identifiers appearing as `Reference`s inside an object (the
graph's edge set). -/
def refsOfO : Object → List ObjectId
  | .reference id => [id]
  | .array xs => refsOfL xs
  | .dictionary d => refsOfD d
  | .stream d _ => refsOfD d
  | _ => []

/-- References inside array contents. -/
def refsOfL : ObjList → List ObjectId
  | .nil => []
  | .cons o rest => refsOfO o ++ refsOfL rest

/-- References inside dictionary values. -/
def refsOfD : Dict → List ObjectId
  | .nil => []
  | .cons _ v rest => refsOfO v ++ refsOfD rest

end

mutual

/-- `update_references` (pdf.rs:132-156): recursively rewrite every
`Reference` whose id is in the remap table; a reference whose target is not
in the table is left unchanged. -/
def updO (m : IdMap) : Object → Object
  | .reference id =>
    match alookup m id with
    | some nid => .reference nid
    | none => .reference id
  | .array xs => .array (updL m xs)
  | .dictionary d => .dictionary (updD m d)
  | .stream d payload => .stream (updD m d) payload
  | o => o

/-- `update_references` over array contents. -/
def updL (m : IdMap) : ObjList → ObjList
  | .nil => .nil
  | .cons o rest => .cons (updO m o) (updL m rest)

/-- `update_references` over dictionary values. -/
def updD (m : IdMap) : Dict → Dict
  | .nil => .nil
  | .cons k v rest => .cons k (updO m v) (updD m rest)

end

/-- Modelled from the spec: the codec's page-tree walk underlying
`get_pages` (§3: "rooted at Catalog→Pages, a tree of Pages nodes, each with
a `Kids` array of child references (leaf Page nodes or nested Pages
nodes)").  A kid that is not a reference, does not resolve, or names a type
other than `Page`/`Pages` is skipped.  The real codec recursion is
unbounded (it diverges on a cyclic page tree); here descent into a nested
`Pages` node consumes one unit of fuel, and an exhausted walk yields no
further pages. -/
def collectKidsLGo (objs : OMap) (deeper : ObjList → List ObjectId) :
    ObjList → List ObjectId
  | .nil => []
  | .cons o rest =>
    (match o with
     | .reference kid =>
       match alookup objs kid with
       | some (.dictionary dict) =>
         match dict.get bType with
         | some (.name t) =>
           if t = bPage then [kid]
           else if t = bPages then
             match dict.get bKids with
             | some (.array kk) => deeper kk
             | _ => []
           else []
         | _ => []
       | _ => []
     | _ => []) ++ collectKidsLGo objs deeper rest

/-- Modelled from the spec: the codec walk at a given fuel — descending
into a nested `Pages` node consumes one unit; an exhausted walk
contributes no further pages. -/
def collectKidsL (objs : OMap) : Nat → ObjList → List ObjectId
  | 0 => collectKidsLGo objs (fun _ => [])
  | fuel + 1 => collectKidsLGo objs (collectKidsL objs fuel)

/-- Modelled from the spec: the codec's `catalog()` accessor — the trailer's
`Root` reference resolved to the catalog dictionary — composed with the
catalog's `Pages` reference, yielding the page-tree root id. -/
def pageTreeRoot (d : Document) : Option ObjectId :=
  match d.trailer.get bRoot with
  | some (.reference rid) =>
    match alookup d.objects rid with
    | some (.dictionary cat) =>
      match cat.get bPages with
      | some (.reference pid) => some pid
      | _ => none
    | _ => none
  | _ => none

/-- Modelled from the spec: the codec's `get_pages` — the ordered leaf Page
ids of the page tree (document order).  Fuel for nested `Pages` descent is
the arena size, enough for any page tree that visits each node at most
once. -/
def getPages (d : Document) : List ObjectId :=
  match pageTreeRoot d with
  | some pid =>
    match alookup d.objects pid with
    | some (.dictionary pd) =>
      match pd.get bKids with
      | some (.array kids) => collectKidsL d.objects d.objects.length kids
      | _ => []
    | _ => []
  | none => []

/-- Strict page-tree walk used to state document validity: succeeds only
when every kid at every level is a `Reference` to a live dictionary whose
`Type` is `Page` or `Pages` (the spec's §3/§6 structural conventions),
every nested `Pages` node carries a `Kids` array, the walk never revisits
the node `avoid` (the page-tree root being mutated by a merge), and the
fuel bounds the nesting depth.  On success it agrees with the codec walk
`collectKidsL`. -/
def collectKidsAGo (objs : OMap) (avoid : Option ObjectId)
    (deeper : ObjList → Option (List ObjectId)) :
    ObjList → Option (List ObjectId)
  | .nil => some []
  | .cons o rest =>
    match o with
    | .reference kid =>
      if avoid = some kid then none
      else
        match alookup objs kid with
        | some (.dictionary dict) =>
          match dict.get bType with
          | some (.name t) =>
            if t = bPage then
              match collectKidsAGo objs avoid deeper rest with
              | some ps => some (kid :: ps)
              | none => none
            else if t = bPages then
              match dict.get bKids with
              | some (.array kk) =>
                match deeper kk, collectKidsAGo objs avoid deeper rest with
                | some ps₁, some ps₂ => some (ps₁ ++ ps₂)
                | _, _ => none
              | _ => none
            else none
          | _ => none
        | _ => none
    | _ => none

/-- The strict walk at a given fuel: nesting deeper than the fuel, like
any other violation, makes the walk fail. -/
def collectKidsA (objs : OMap) (avoid : Option ObjectId) :
    Nat → ObjList → Option (List ObjectId)
  | 0 => collectKidsAGo objs avoid (fun _ => none)
  | fuel + 1 => collectKidsAGo objs avoid (collectKidsA objs avoid fuel)

/-! ## Merge engine (pdf.rs:50-129) -/

/-- The copy loop (pdf.rs:79-84): for every `(old_id, object)` of the source
arena in iteration order, increment the running max (a `u32`, hence mod
`2^32`), mint `new_id = (max_id, 0)`, record `old_id ↦ new_id` in the remap
table and insert the copied object into the base arena. -/
def copyPh (objs : OMap) (m : IdMap) (mid : Nat) :
    List (ObjectId × Object) → OMap × IdMap × Nat
  | [] => (objs, m, mid)
  | (oldId, obj) :: rest =>
    let mid' := (mid + 1) % U32
    copyPh (ains objs (mid', 0) obj) (ains m oldId (mid', 0)) mid' rest

/-- The reference-update loop (pdf.rs:86-91): for every `(old, new)` entry
of the remap table, rewrite the references inside the object stored at
`new` (skipping entries whose object is absent). -/
def updPh (full : IdMap) (objs : OMap) : IdMap → OMap
  | [] => objs
  | (_, nid) :: rest =>
    match alookup objs nid with
    | some o => updPh full (aset objs nid (updO full o)) rest
    | none => updPh full objs rest

/-- Push a reference to the copied page onto the root node's `Kids` array
(pdf.rs:105-109); a missing or non-array `Kids` is silently skipped. -/
def pushKid (pd : Dict) (newPageId : ObjectId) : Dict :=
  match pd.get bKids with
  | some (.array kids) =>
    pd.set bKids (.array (kids ++ ObjList.cons (.reference newPageId) .nil))
  | _ => pd

/-- Increment the root node's integer `Count` if it is one (pdf.rs:110-115);
a missing or non-integer `Count` is silently skipped. -/
def bumpCount (pd : Dict) : Dict :=
  match pd.get bCount with
  | some (.integer n) => pd.set bCount (.integer (n + 1))
  | _ => pd

/-- One iteration of the page-splicing loop (pdf.rs:97-116): resolve the
base catalog through the trailer's `Root`, resolve its `Pages` reference,
and—when that node is a live dictionary—push the new kid and bump the
count; a dangling or non-dictionary page-tree root is silently skipped,
while a failure in the catalog chain aborts the merge. -/
def spliceOne (d : Document) (newPageId : ObjectId) : Except String Document :=
  match d.trailer.get bRoot with
  | some (.reference rid) =>
    match alookup d.objects rid with
    | some (.dictionary cat) =>
      match cat.get bPages with
      | some (.reference pid) =>
        match alookup d.objects pid with
        | some (.dictionary pd) =>
          .ok { d with
            objects := aset d.objects pid
              (.dictionary (bumpCount (pushKid pd newPageId))) }
        | _ => .ok d
      | some _ => .error "Pages entry is not a reference"
      | none => .error "catalog has no Pages entry"
    | _ => .error "failed to resolve catalog"
  | some _ => .error "Root entry is not a reference"
  | none => .error "trailer has no Root entry"

/-- The page-splicing loop (pdf.rs:93-118): for each source page id in
document order, look up its remapped id (skipping pages the remap table
misses) and splice it into the base page tree. -/
def spliceAll (m : IdMap) : Document → List ObjectId → Except String Document
  | d, [] => .ok d
  | d, pageId :: rest =>
    match alookup m pageId with
    | some nid =>
      match spliceOne d nid with
      | .ok d' => spliceAll m d' rest
      | .error e => .error e
    | none => spliceAll m d rest

/-- One iteration of the merge loop (pdf.rs:68-121): copy the source arena
into the base with fresh ids, rewrite references inside the copies, splice
the source's pages into the base page tree, and persist the new `max_id`. -/
def mergeStep (base src : Document) : Except String Document :=
  match copyPh base.objects [] base.maxId src.objects with
  | (objs₁, m, mid') =>
    let objs₂ := updPh m objs₁ m
    match spliceAll m { base with objects := objs₂ } (getPages src) with
    | .ok d => .ok { d with maxId := mid' }
    | .error e => .error e

/-- The merge loop over the second and subsequent inputs. -/
def mergeFold (base : Document) : List Document → Except String Document
  | [] => .ok base
  | src :: rest =>
    match mergeStep base src with
    | .ok b' => mergeFold b' rest
    | .error e => .error e

/-- `merge_pdfs` (pdf.rs:51-129) on loaded documents: an empty input list
is a usage error; a single input is returned as-is (the code copies the
file verbatim without loading it); otherwise the first document is the base
and the rest are folded in.  Loading and saving at the path boundary are
abstracted away. -/
def merge_pdfs : List Document → Except String Document
  | [] => .error "No input files provided"
  | [d] => .ok d
  | d :: rest => mergeFold d rest

/-! ## Metadata inspector (pdf.rs:5-48) -/

/-- Outcome of `get_pdf_info` (the `path` echo field is dropped; `title`
and `author` keep the raw string bytes). -/
structure PdfInfo where
  pages : Nat
  title : Option Bytes
  author : Option Bytes

/-- The best-effort metadata lookup of pdf.rs:23-40: trailer `Info` entry,
which must be a reference to a live dictionary whose entry at `key` is a
string; any failure along the chain degrades to `none`. -/
def metaLookup (d : Document) (key : Bytes) : Option Bytes :=
  match d.trailer.get bInfo with
  | some (.reference iref) =>
    match alookup d.objects iref with
    | some (.dictionary dict) =>
      match dict.get key with
      | some (.string s) => some s
      | _ => none
    | _ => none
  | _ => none

/-- `get_pdf_info` (pdf.rs:14-48) on a loaded document: page count plus
best-effort `Title`/`Author` lookups.  Read-only: the document is not
returned because it is not changed. -/
def get_pdf_info (d : Document) : PdfInfo :=
  { pages := (getPages d).length
    title := metaLookup d bTitle
    author := metaLookup d bAuthor }

/-! ## Image-page composer (pdf.rs:158-229) -/

/-- A4 sheet width in millimetres (pdf.rs:182). -/
def a4WidthMM : ℚ := 210

/-- A4 sheet height in millimetres (pdf.rs:183). -/
def a4HeightMM : ℚ := 297

/-- Pixels to millimetres at the fixed 96 DPI reference density
(pdf.rs:186-188); `f32` arithmetic is idealised as exact rationals. -/
def pxToMM (px : Nat) : ℚ := (px : ℚ) / 96 * (254 / 10)

/-- The uniform scale factor (pdf.rs:191-193):
`min(sheetW/imageW, sheetH/imageH, 1)`. -/
def pageScale (w h : Nat) : ℚ :=
  min (min (a4WidthMM / pxToMM w) (a4HeightMM / pxToMM h)) 1

/-- The physical page size for one image (pdf.rs:194-195). -/
def pageSize (w h : Nat) : ℚ × ℚ :=
  (pxToMM w * pageScale w h, pxToMM h * pageScale w h)

/-- `images_to_pdf` (pdf.rs:159-229) abstracted to what the claims
observe: the input is the list of decoded pixel dimensions (the image
decoding collaborator is external), the output the list of page sizes, one
page per image in input order. -/
def images_to_pdf (dims : List (Nat × Nat)) : Except String (List (ℚ × ℚ)) :=
  match dims with
  | [] => .error "No image files provided"
  | _ => .ok (dims.map fun p => pageSize p.1 p.2)

/-! ## Page deletion engine (pdf.rs:412-447) -/

/-- Descending insertion, modelling `sort_by(|a, b| b.cmp(a))`. -/
def insertDesc (x : Nat) : List Nat → List Nat
  | [] => [x]
  | y :: ys => if y ≤ x then x :: y :: ys else y :: insertDesc x ys

/-- Sort a list of page numbers in descending order. -/
def sortDesc (l : List Nat) : List Nat := l.foldr insertDesc []

/-- `delete_pages` (pdf.rs:413-447) over the codec's page-list view: the
input list is the document's ordered leaf pages (`doc.get_pages()`), whose
length is the total page count used by the validation.  Modelled from the
spec: the codec's deletion of 1-indexed page `p` removes the `p`-th entry
of the current document-order page list (each deletion shifts later
indices, which is why the engine deletes in descending order). -/
def delete_pages (pageIds : List ObjectId) (toDelete : List Nat) :
    Except String (List ObjectId) :=
  let total := pageIds.length
  if toDelete.any (fun p => decide (p = 0 ∨ total < p)) then
    .error "Invalid page number"
  else if total ≤ toDelete.length then
    .error "Cannot delete all pages from PDF"
  else
    .ok ((sortDesc toDelete).foldl (fun ids p => ids.eraseIdx (p - 1)) pageIds)

/-! ## Watermark heuristic remover (pdf.rs:231-410) -/

/-- Result of a watermark removal attempt. -/
structure WatermarkRemovalResult where
  success : Bool
  items_removed : Nat
  message : String

/-- The fixed keyword set of pdf.rs:248-265. -/
def watermarkIndicators : List Bytes :=
  [strBytes "Watermark", strBytes "watermark", strBytes "WATERMARK",
   strBytes "WM", strBytes "wm", strBytes "Overlay", strBytes "overlay",
   strBytes "Background", strBytes "Draft", strBytes "DRAFT",
   strBytes "Confidential", strBytes "CONFIDENTIAL", strBytes "Sample",
   strBytes "SAMPLE", strBytes "Copy", strBytes "COPY"]

/-- `n.windows(ind.len()).any(|w| w == ind)`: contiguous substring test. -/
def hasIndicator (n ind : Bytes) : Bool :=
  (List.range (n.length + 1 - ind.length)).any
    (fun i => ((n.drop i).take ind.length) == ind)

/-- Detection rule of pdf.rs:274-283 and 312-321: a `Name` entry containing
any keyword as a contiguous byte substring (the inner `break` caps this
rule at one hit per object). -/
def nameMatches (dict : Dict) : Bool :=
  match dict.get bName with
  | some (.name n) => watermarkIndicators.any (fun ind => hasIndicator n ind)
  | _ => false

/-- Detection rule of pdf.rs:286-292: `Subtype` equal to the name
`Watermark`. -/
def subtypeIsWatermark (dict : Dict) : Bool :=
  match dict.get bSubtype with
  | some (.name n) => n == bWatermark
  | _ => false

/-- Detection rule of pdf.rs:295-307: `Type` equal to `Annot` and `Subtype`
equal to `Watermark`. -/
def typeAnnotAndWatermark (dict : Dict) : Bool :=
  match dict.get bType with
  | some (.name n) => if n == bAnnot then subtypeIsWatermark dict else false
  | _ => false

/-- The ids one object contributes to `objects_to_remove` (pdf.rs:271-323):
dictionaries are pushed once per matching rule (Name keyword, `Subtype`
rule, `Type`/`Subtype` rule — so one object can be pushed up to three
times), streams once when their dictionary's `Name` matches. -/
def pushesFor (id : ObjectId) : Object → List ObjectId
  | .dictionary dict =>
    (if nameMatches dict then [id] else []) ++
    (if subtypeIsWatermark dict then [id] else []) ++
    (if typeAnnotAndWatermark dict then [id] else [])
  | .stream sdict _ => if nameMatches sdict then [id] else []
  | _ => []

/-- The full `objects_to_remove` vector, in arena iteration order. -/
def objectsToRemove (objs : OMap) : List ObjectId :=
  (objs.map (fun p => pushesFor p.1 p.2)).flatten

/-- The removal loop (pdf.rs:326-329): remove each collected id from the
arena and increment the counter once per vector entry — a duplicate entry
is a no-op removal that is still counted. -/
def removePass (objs : OMap) : List ObjectId → OMap × Nat
  | [] => (objs, 0)
  | id :: rest =>
    let r := removePass (aremove objs id) rest
    (r.1, 1 + r.2)

/-- The annotation test of pdf.rs:341-356: a reference entry is a
watermark annotation when its id was collected for removal, or when it
resolves to a dictionary whose `Subtype` is `Watermark`. -/
def annotMatches (objs : OMap) (toRemove : List ObjectId) (el : Object) :
    Option ObjectId :=
  match el with
  | .reference aid =>
    if toRemove.contains aid then some aid
    else
      match alookup objs aid with
      | some (.dictionary ad) => if subtypeIsWatermark ad then some aid else none
      | _ => none
  | _ => none

/-- Collect the watermark annotation ids of one `Annots` array. -/
def collectWmAnnots (objs : OMap) (toRemove : List ObjectId) :
    ObjList → List ObjectId
  | .nil => []
  | .cons el rest =>
    (match annotMatches objs toRemove el with
     | some aid => [aid]
     | none => []) ++ collectWmAnnots objs toRemove rest

/-- The surviving annotation entries (pdf.rs:376-385): drop references to
collected watermark annotations, keep everything else in order. -/
def filterAnnots (wm : List ObjectId) : ObjList → ObjList
  | .nil => .nil
  | .cons el rest =>
    match el with
    | .reference aid =>
      if wm.contains aid then filterAnnots wm rest
      else .cons (.reference aid) (filterAnnots wm rest)
    | other => .cons other (filterAnnots wm rest)

/-- The per-page annotation pass (pdf.rs:334-393), over the evolving arena:
pages with a non-empty set of watermark annotations get a rebuilt `Annots`
array and add the number of dropped references to the counter. -/
def annotPass (toRemove : List ObjectId) :
    OMap → Nat → List ObjectId → OMap × Nat
  | objs, items, [] => (objs, items)
  | objs, items, pageId :: rest =>
    match alookup objs pageId with
    | some (.dictionary pageDict) =>
      match pageDict.get bAnnots with
      | some (.array annotArr) =>
        let wm := collectWmAnnots objs toRemove annotArr
        if wm.isEmpty then annotPass toRemove objs items rest
        else
          let objs' :=
            match alookup objs pageId with
            | some (.dictionary pd) =>
              aset objs pageId
                (.dictionary (pd.set bAnnots (.array (filterAnnots wm annotArr))))
            | _ => objs
          annotPass toRemove objs' (items + wm.length) rest
      | _ => annotPass toRemove objs items rest
    | _ => annotPass toRemove objs items rest

/-- `remove_watermark` (pdf.rs:241-410) on a loaded document, returning the
saved document together with the report: collect matching objects, remove
them (counting every vector entry), then prune page `Annots` arrays
(counting every dropped reference); `success` is `items_removed > 0` and
the document is saved unconditionally. -/
def remove_watermark (d : Document) : Document × WatermarkRemovalResult :=
  let toRemove := objectsToRemove d.objects
  let r₁ := removePass d.objects toRemove
  let d₁ : Document := { d with objects := r₁.1 }
  let pages := getPages d₁
  let r₂ := annotPass toRemove r₁.1 r₁.2 pages
  let items := r₂.2
  let msg :=
    if items > 0 then
      "Found and removed " ++ toString items ++
        " potential watermark element(s). Please check the output file."
    else
      "No obvious watermark elements were found. The watermark may be embedded in the page content, which cannot be easily removed."
  ({ d with objects := r₂.1 },
   { success := items > 0, items_removed := items, message := msg })

/-- The number of annotation references dropped by the annotation pass of
`remove_watermark`: the same pass run with a zeroed counter. -/
def droppedCount (d : Document) : Nat :=
  let toRemove := objectsToRemove d.objects
  let r₁ := removePass d.objects toRemove
  (annotPass toRemove r₁.1 0 (getPages { d with objects := r₁.1 })).2

/-! ## Validity predicates and specification-side descriptions -/

/-- The id an old source id is remapped to: the remap-table entry when
present, the id itself otherwise (exactly how `update_references` treats a
single reference). -/
def remapF (m : IdMap) (id : ObjectId) : ObjectId := (alookup m id).getD id

/-- Invariant I2, first half: every live object number is at most
`max_id`. -/
def keyNumsLeB (d : Document) : Bool := d.objects.all (fun p => p.1.1 ≤ d.maxId)

/-- Invariant I1: every reference inside a live object resolves within the
same arena. -/
def refsResolveB (d : Document) : Bool :=
  d.objects.all (fun p => (refsOfO p.2).all (fun r => akeyMem d.objects r))

/-- A valid document in the sense of the spec (§3 invariants I1/I2 and the
§6 structural conventions): unique ids below `max_id`, resolving
references, a trailer `Root` reference to a catalog dictionary whose
`Pages` reference resolves to a page-tree root carrying a `Kids` array,
and a page tree that the strict walk accepts (every kid a reference to a
live `Page`/`Pages` dictionary, nesting within the arena-size fuel, and no
kid revisiting the root node). -/
def ValidDoc (d : Document) : Prop :=
  ∃ rid cat pid pd kids ps,
    d.trailer.get bRoot = some (.reference rid) ∧
    alookup d.objects rid = some (.dictionary cat) ∧
    cat.get bPages = some (.reference pid) ∧
    alookup d.objects pid = some (.dictionary pd) ∧
    pd.get bKids = some (.array kids) ∧
    collectKidsA d.objects (some pid) d.objects.length kids = some ps ∧
    (akeys d.objects).Nodup ∧
    keyNumsLeB d = true ∧
    refsResolveB d = true

/-- Keep the elements whose 1-indexed position (counting from `k`) is not
listed in `dropNums`: the specification-side description of which pages
survive a deletion. -/
def keepFrom {α : Type} (dropNums : List Nat) (k : Nat) : List α → List α
  | [] => []
  | a :: as =>
    if k ∈ dropNums then keepFrom dropNums (k + 1) as
    else a :: keepFrom dropNums (k + 1) as

/-- The fresh copies inserted by the copy loop, in order: the source values
stamped with object numbers `mid+1, mid+2, …` (generation 0). -/
def stampObjs (mid : Nat) : List (ObjectId × Object) → OMap
  | [] => []
  | (_, v) :: rest => ((mid + 1, 0), v) :: stampObjs (mid + 1) rest

/-- The remap table built by the copy loop, in order: the source keys paired
with the same fresh ids. -/
def stampMap (mid : Nat) : List (ObjectId × Object) → IdMap
  | [] => []
  | (k, _) :: rest => (k, (mid + 1, 0)) :: stampMap (mid + 1) rest

/-- The identifier head-room a fold of merges consumes: the base `max_id`
plus one fresh object number per source object.  Below the u32 wrap, the
minted numbers never collide. -/
def mergeBound : List Document → Nat
  | [] => 0
  | d :: rest => d.maxId + (rest.map (fun s => s.objects.length)).sum

/-- The specification-side description of the merged page order: one block
per source in fold order, each block the source's page list remapped
through the copy table minted at that point (fresh numbers starting right
after the running `max_id`). -/
def expectedOrder (mid : Nat) : List Document → List (List ObjectId)
  | [] => []
  | src :: rest =>
    (getPages src).map (remapF (stampMap mid src.objects)) ::
      expectedOrder (mid + src.objects.length) rest

/-! ## Concrete example documents (used by witnesses and counterexamples) -/

/-- A leaf page object. -/
def pageObj : Object := .dictionary (.cons bType (.name bPage) .nil)

/-- A minimal valid one-page document: catalog `(1,0)`, page-tree root
`(2,0)` with one kid, leaf page `(3,0)`. -/
def docA : Document :=
  { objects :=
      [((1, 0), .dictionary (.cons bPages (.reference (2, 0)) .nil)),
       ((2, 0), .dictionary (.cons bType (.name bPages)
          (.cons bKids (.array (.cons (.reference (3, 0)) .nil))
          (.cons bCount (.integer 1) .nil)))),
       ((3, 0), pageObj)],
    trailer := .cons bRoot (.reference (1, 0)) .nil,
    maxId := 3 }

/-- Extract the document of a successful outcome (placeholder otherwise). -/
def exOk (e : Except String Document) : Document :=
  match e with
  | .ok d => d
  | .error _ => { objects := [], trailer := .nil, maxId := 0 }

/-- The merge of `docA` with itself. -/
def mergedAA : Document := exOk (merge_pdfs [docA, docA])

/-- A document whose only object is an annotation dictionary with
`Type = Annot` and `Subtype = Watermark`: it matches both the `Subtype`
detection rule and the `Type`/`Subtype` detection rule. -/
def wmAnnotDoc : Document :=
  { objects := [((1, 0), .dictionary (.cons bType (.name bAnnot)
      (.cons bSubtype (.name bWatermark) .nil)))],
    trailer := .nil,
    maxId := 1 }

/-- A document with one object named `Watermark1` and no watermark-tagged
annotations. -/
def wmNameDoc : Document :=
  { objects := [((1, 0), .dictionary (.cons bName (.name (strBytes "Watermark1")) .nil))],
    trailer := .nil,
    maxId := 1 }

/-- A document in which no watermark pattern matches. -/
def cleanDoc : Document :=
  { objects := [((1, 0), .dictionary (.cons bType (.name bPage) .nil))],
    trailer := .nil,
    maxId := 1 }

/-! ## Basic lemmas: association lists and dictionaries -/

theorem alookup_ains {α : Type} (l : List (ObjectId × α)) (id : ObjectId) (v : α)
    (x : ObjectId) :
    alookup (ains l id v) x = if id = x then some v else alookup l x := by
  induction l with
  | nil => simp [ains, alookup]
  | cons p rest ih =>
    obtain ⟨k, w⟩ := p
    by_cases hk : k = id
    · subst hk
      by_cases hx : k = x <;> simp [ains, alookup, hx]
    · by_cases hx : k = x
      · subst hx
        have hid : ¬ id = k := fun h => hk h.symm
        simp [ains, alookup, hk, hid]
      · simp [ains, alookup, hk, hx, ih]

theorem alookup_aset_ne {α : Type} (l : List (ObjectId × α)) (id : ObjectId) (v : α)
    (x : ObjectId) (h : ¬ id = x) :
    alookup (aset l id v) x = alookup l x := by
  induction l with
  | nil => rfl
  | cons p rest ih =>
    obtain ⟨k, w⟩ := p
    by_cases hk : k = id
    · subst hk
      simp [aset, alookup, h]
    · simp [aset, hk, alookup, ih]

theorem alookup_aset_self {α : Type} (l : List (ObjectId × α)) (id : ObjectId)
    (v w : α) (h : alookup l id = some w) :
    alookup (aset l id v) id = some v := by
  induction l with
  | nil => simp [alookup] at h
  | cons p rest ih =>
    obtain ⟨k, w'⟩ := p
    by_cases hk : k = id
    · simp [aset, hk, alookup]
    · simp only [alookup, if_neg hk] at h
      simp [aset, hk, alookup, ih h]

theorem aset_of_none {α : Type} (l : List (ObjectId × α)) (id : ObjectId) (v : α)
    (h : alookup l id = none) : aset l id v = l := by
  induction l with
  | nil => rfl
  | cons p rest ih =>
    obtain ⟨k, w⟩ := p
    by_cases hk : k = id
    · simp [alookup, hk] at h
    · simp only [alookup, if_neg hk] at h
      simp [aset, hk, ih h]

theorem akeys_aset {α : Type} (l : List (ObjectId × α)) (id : ObjectId) (v : α) :
    akeys (aset l id v) = akeys l := by
  induction l with
  | nil => rfl
  | cons p rest ih =>
    obtain ⟨k, w⟩ := p
    by_cases hk : k = id
    · simp [aset, hk, akeys]
    · simp only [aset, if_neg hk]
      simp only [akeys] at ih ⊢
      simp [ih]

theorem alookup_append_left {α : Type} {l₁ : List (ObjectId × α)}
    (l₂ : List (ObjectId × α)) {x : ObjectId} {v : α}
    (h : alookup l₁ x = some v) : alookup (l₁ ++ l₂) x = some v := by
  induction l₁ with
  | nil => simp [alookup] at h
  | cons p rest ih =>
    obtain ⟨k, w⟩ := p
    by_cases hk : k = x
    · simp only [alookup, if_pos hk] at h
      simp [alookup, hk, h]
    · simp only [alookup, if_neg hk] at h
      simp [alookup, hk, ih h]

theorem alookup_append_right {α : Type} {l₁ : List (ObjectId × α)}
    (l₂ : List (ObjectId × α)) {x : ObjectId}
    (h : alookup l₁ x = none) : alookup (l₁ ++ l₂) x = alookup l₂ x := by
  induction l₁ with
  | nil => simp
  | cons p rest ih =>
    obtain ⟨k, w⟩ := p
    by_cases hk : k = x
    · simp [alookup, hk] at h
    · simp only [alookup, if_neg hk] at h
      simp [alookup, hk, ih h]

theorem alookup_eq_none_iff {α : Type} (l : List (ObjectId × α)) (x : ObjectId) :
    alookup l x = none ↔ x ∉ akeys l := by
  induction l with
  | nil => simp [alookup, akeys]
  | cons p rest ih =>
    obtain ⟨k, w⟩ := p
    by_cases hk : k = x
    · subst hk
      simp [alookup, akeys]
    · have hxk : ¬ x = k := fun h => hk h.symm
      simp [alookup, hk, akeys, ih, hxk]

theorem alookup_mem {α : Type} {l : List (ObjectId × α)} {x : ObjectId} {v : α}
    (h : alookup l x = some v) : (x, v) ∈ l := by
  induction l with
  | nil => simp [alookup] at h
  | cons p rest ih =>
    obtain ⟨k, w⟩ := p
    by_cases hk : k = x
    · subst hk
      simp only [alookup, if_pos rfl] at h
      cases h
      exact List.mem_cons_self _ _
    · simp only [alookup, if_neg hk] at h
      exact List.mem_cons_of_mem _ (ih h)

theorem alookup_isSome_iff {α : Type} (l : List (ObjectId × α)) (x : ObjectId) :
    (alookup l x).isSome = true ↔ x ∈ akeys l := by
  rcases h : alookup l x with _ | v
  · simpa using (alookup_eq_none_iff l x).mp h
  · have hm := alookup_mem h
    simp only [Option.isSome_some, true_iff, akeys]
    exact List.mem_map_of_mem Prod.fst hm

theorem akeys_append {α : Type} (l₁ l₂ : List (ObjectId × α)) :
    akeys (l₁ ++ l₂) = akeys l₁ ++ akeys l₂ := by
  simp [akeys]

theorem ObjList.nil_app (y : ObjList) : ObjList.nil ++ y = y := rfl

theorem ObjList.cons_app (o : Object) (x y : ObjList) :
    (ObjList.cons o x) ++ y = ObjList.cons o (x ++ y) := rfl

theorem Dict.get_set_self : ∀ (d : Dict) (k : Bytes) (v : Object),
    (d.set k v).get k = some v
  | .nil, k, v => by simp [Dict.set, Dict.get]
  | .cons k' v' rest, k, v => by
    by_cases hk : k' = k
    · simp [Dict.set, hk, Dict.get]
    · simp [Dict.set, hk, Dict.get, Dict.get_set_self rest k v]

theorem Dict.get_set_ne : ∀ (d : Dict) (k k' : Bytes) (v : Object),
    ¬ k = k' → (d.set k v).get k' = d.get k'
  | .nil, k, k', v, h => by simp [Dict.set, Dict.get, h]
  | .cons k₀ v₀ rest, k, k', v, h => by
    by_cases hk : k₀ = k
    · subst hk
      have hne : ¬ k₀ = k' := h
      simp [Dict.set, Dict.get, hne]
    · simp only [Dict.set, if_neg hk, Dict.get]
      by_cases hx : k₀ = k' <;> simp [hx, Dict.get_set_ne rest k k' v h]

theorem refsOfD_set_sub : ∀ (d : Dict) (k : Bytes) (v : Object) (r : ObjectId),
    r ∈ refsOfD (d.set k v) → r ∈ refsOfO v ∨ r ∈ refsOfD d
  | .nil, k, v, r, h => by
    simpa [Dict.set, refsOfD] using h
  | .cons k₀ v₀ rest, k, v, r, h => by
    by_cases hk : k₀ = k
    · simp only [Dict.set, if_pos hk, refsOfD, List.mem_append] at h ⊢
      tauto
    · simp only [Dict.set, if_neg hk, refsOfD, List.mem_append] at h ⊢
      rcases h with h | h
      · tauto
      · rcases refsOfD_set_sub rest k v r h with h | h <;> tauto

theorem refsOfD_get_sub : ∀ (d : Dict) (k : Bytes) (v : Object) (r : ObjectId),
    d.get k = some v → r ∈ refsOfO v → r ∈ refsOfD d
  | .nil, k, v, r, hget, h => by simp [Dict.get] at hget
  | .cons k₀ v₀ rest, k, v, r, hget, h => by
    by_cases hk : k₀ = k
    · simp only [Dict.get, if_pos hk] at hget
      cases hget
      simp [refsOfD, h]
    · simp only [Dict.get, if_neg hk] at hget
      simp [refsOfD, refsOfD_get_sub rest k v r hget h]

theorem refsOfL_app : ∀ (x y : ObjList), refsOfL (x ++ y) = refsOfL x ++ refsOfL y
  | .nil, y => rfl
  | .cons o rest, y => by
    rw [ObjList.cons_app]
    simp [refsOfL, refsOfL_app rest y]

/-! ## C8, C7, C5, C9: the self-contained operations -/

/-- C8: `merge_pdfs` on a single-element input returns that input unchanged
(the code copies the file verbatim, with no loading and no graph
rewriting), and an empty input list fails with the usage error and writes
no output. -/
theorem merge_single_copy :
    (∀ d : Document, merge_pdfs [d] = .ok d) ∧
    merge_pdfs ([] : List Document) = .error "No input files provided" :=
  ⟨fun _ => rfl, rfl⟩

/-- C7: `images_to_pdf` yields one page per image, in input order; for
positive pixel dimensions each page fits within the A4 sheet, never
exceeds the natural 96-DPI physical size (images are only shrunk), and
keeps its image's aspect ratio (stated by cross-multiplication). -/
theorem images_to_pdf_pages (dims : List (Nat × Nat)) (pages : List (ℚ × ℚ))
    (hok : images_to_pdf dims = .ok pages) :
    pages = dims.map (fun p => pageSize p.1 p.2) ∧
    pages.length = dims.length ∧
    (∀ w h : Nat, (w, h) ∈ dims → 0 < w → 0 < h →
      (pageSize w h).1 ≤ a4WidthMM ∧ (pageSize w h).2 ≤ a4HeightMM ∧
      (pageSize w h).1 ≤ pxToMM w ∧ (pageSize w h).2 ≤ pxToMM h ∧
      (pageSize w h).1 * (h : ℚ) = (pageSize w h).2 * (w : ℚ)) := by
  have hmap : pages = dims.map (fun p => pageSize p.1 p.2) := by
    cases dims with
    | nil => simp [images_to_pdf] at hok
    | cons d rest =>
      simp only [images_to_pdf, Except.ok.injEq] at hok
      exact hok.symm
  refine ⟨hmap, by simp [hmap], ?_⟩
  intro w h _ hw hh
  have hwq : (0 : ℚ) < (w : ℚ) := by exact_mod_cast hw
  have hhq : (0 : ℚ) < (h : ℚ) := by exact_mod_cast hh
  have hwpos : (0 : ℚ) < pxToMM w := by unfold pxToMM; positivity
  have hhpos : (0 : ℚ) < pxToMM h := by unfold pxToMM; positivity
  have hs1 : pageScale w h ≤ a4WidthMM / pxToMM w := by
    unfold pageScale; exact le_trans (min_le_left _ _) (min_le_left _ _)
  have hs2 : pageScale w h ≤ a4HeightMM / pxToMM h := by
    unfold pageScale; exact le_trans (min_le_left _ _) (min_le_right _ _)
  have hs3 : pageScale w h ≤ 1 := by
    unfold pageScale; exact min_le_right _ _
  refine ⟨?_, ?_, ?_, ?_, ?_⟩
  · calc pxToMM w * pageScale w h ≤ pxToMM w * (a4WidthMM / pxToMM w) :=
          mul_le_mul_of_nonneg_left hs1 (le_of_lt hwpos)
    _ = a4WidthMM := by field_simp
  · calc pxToMM h * pageScale w h ≤ pxToMM h * (a4HeightMM / pxToMM h) :=
          mul_le_mul_of_nonneg_left hs2 (le_of_lt hhpos)
    _ = a4HeightMM := by field_simp
  · calc pxToMM w * pageScale w h ≤ pxToMM w * 1 :=
          mul_le_mul_of_nonneg_left hs3 (le_of_lt hwpos)
    _ = pxToMM w := mul_one _
  · calc pxToMM h * pageScale w h ≤ pxToMM h * 1 :=
          mul_le_mul_of_nonneg_left hs3 (le_of_lt hhpos)
    _ = pxToMM h := mul_one _
  · show pxToMM w * pageScale w h * (h : ℚ) = pxToMM h * pageScale w h * (w : ℚ)
    unfold pxToMM
    ring

/-- Witness for C7 at one 960×960 image. -/
theorem images_to_pdf_pages_witness :
    ([((254 : ℚ) * (105 / 127), (254 : ℚ) * (105 / 127))] :
        List (ℚ × ℚ)).length = [(960, 960)].length ∧
    (pageSize 960 960).1 ≤ a4WidthMM := by
  have h := images_to_pdf_pages [(960, 960)] [pageSize 960 960] rfl
  refine ⟨rfl, ?_⟩
  exact (h.2.2 960 960 (by simp) (by norm_num) (by norm_num)).1

/-- C5: `delete_pages` rejects — with an error, before any mutation and
before writing any output — whenever a requested page number is `0` or
exceeds the page count, or at least as many pages are requested as
exist. -/
theorem delete_pages_rejects_invalid (pageIds : List ObjectId) (toDelete : List Nat)
    (h : (∃ p ∈ toDelete, p = 0 ∨ pageIds.length < p) ∨
        pageIds.length ≤ toDelete.length) :
    ∃ msg, delete_pages pageIds toDelete = .error msg := by
  by_cases hany : toDelete.any (fun p => decide (p = 0 ∨ pageIds.length < p)) = true
  · refine ⟨"Invalid page number", ?_⟩
    simp only [delete_pages]
    rw [if_pos hany]
  · have hnex : ¬ ∃ p ∈ toDelete, p = 0 ∨ pageIds.length < p := by
      simpa [List.any_eq_true] using hany
    have hlen : pageIds.length ≤ toDelete.length := h.resolve_left hnex
    refine ⟨"Cannot delete all pages from PDF", ?_⟩
    simp only [delete_pages]
    rw [if_neg hany, if_pos hlen]

/-- Witness for C5: page `0`, an out-of-range page, and an all-pages
request are each rejected on a 3-page document. -/
theorem delete_pages_rejects_invalid_witness :
    (∃ msg, delete_pages [(1, 0), (2, 0), (3, 0)] [0] = .error msg) ∧
    (∃ msg, delete_pages [(1, 0), (2, 0), (3, 0)] [4] = .error msg) ∧
    (∃ msg, delete_pages [(1, 0), (2, 0), (3, 0)] [1, 2, 3] = .error msg) :=
  ⟨delete_pages_rejects_invalid _ _ (Or.inl ⟨0, by simp, Or.inl rfl⟩),
   delete_pages_rejects_invalid _ _ (Or.inl ⟨4, by simp, Or.inr (by norm_num)⟩),
   delete_pages_rejects_invalid _ _ (Or.inr (by simp))⟩

/-- C9: `get_pdf_info` always succeeds on a loaded document, returning the
page count; `title`/`author` are the best-effort `Info` lookups, present
exactly when the whole chain (trailer `Info` reference, live dictionary,
string-valued entry) is well-formed — any malformed step degrades to
`none` rather than an error — and the document is never mutated (the
embedding is a pure read-only function of the document). -/
theorem pdf_info_best_effort :
    (∀ d : Document, (get_pdf_info d).pages = (getPages d).length ∧
        (get_pdf_info d).title = metaLookup d bTitle ∧
        (get_pdf_info d).author = metaLookup d bAuthor) ∧
    (∀ (d : Document) (key s : Bytes),
      metaLookup d key = some s ↔
        ∃ iref dict,
          d.trailer.get bInfo = some (.reference iref) ∧
          alookup d.objects iref = some (.dictionary dict) ∧
          dict.get key = some (.string s)) := by
  constructor
  · intro d; exact ⟨rfl, rfl, rfl⟩
  · intro d key s
    constructor
    · intro hsome
      unfold metaLookup at hsome
      split at hsome
      · rename_i iref h1
        split at hsome
        · rename_i dict h2
          split at hsome
          · rename_i s' h3
            cases hsome
            exact ⟨iref, dict, h1, h2, h3⟩
          · exact absurd hsome (by simp)
        · exact absurd hsome (by simp)
      · exact absurd hsome (by simp)
    · rintro ⟨iref, dict, h1, h2, h3⟩
      simp [metaLookup, h1, h2, h3]

/-! ## C6: delete_pages on a valid request -/

theorem insertDesc_perm (x : Nat) (l : List Nat) : (insertDesc x l).Perm (x :: l) := by
  induction l with
  | nil => exact List.Perm.refl _
  | cons y ys ih =>
    by_cases h : y ≤ x
    · simp only [insertDesc, if_pos h]
      exact List.Perm.refl _
    · simp only [insertDesc, if_neg h]
      exact (ih.cons y).trans (List.Perm.swap x y ys)

theorem sortDesc_perm (l : List Nat) : (sortDesc l).Perm l := by
  induction l with
  | nil => exact List.Perm.refl _
  | cons x xs ih =>
    show (insertDesc x (sortDesc xs)).Perm (x :: xs)
    exact (insertDesc_perm x _).trans (ih.cons x)

theorem insertDesc_sorted (x : Nat) (l : List Nat)
    (h : List.Pairwise (fun a b => b ≤ a) l) :
    List.Pairwise (fun a b => b ≤ a) (insertDesc x l) := by
  induction l with
  | nil => simp [insertDesc]
  | cons y ys ih =>
    rcases h with _ | ⟨hy, hys⟩
    by_cases hxy : y ≤ x
    · simp only [insertDesc, if_pos hxy]
      refine List.Pairwise.cons ?_ (List.Pairwise.cons hy hys)
      intro z hz
      rcases List.mem_cons.mp hz with rfl | hz
      · exact hxy
      · exact le_trans (hy z hz) hxy
    · simp only [insertDesc, if_neg hxy]
      refine List.Pairwise.cons ?_ (ih hys)
      intro z hz
      rcases List.mem_cons.mp ((insertDesc_perm x ys).mem_iff.mp hz) with rfl | hz
      · exact le_of_not_le hxy
      · exact hy z hz

theorem sortDesc_sorted (l : List Nat) :
    List.Pairwise (fun a b => b ≤ a) (sortDesc l) := by
  induction l with
  | nil => simp [sortDesc]
  | cons x xs ih => exact insertDesc_sorted x (sortDesc xs) ih

theorem keepFrom_of_all_lt {α : Type} (ds : List Nat) :
    ∀ (k : Nat) (l : List α), (∀ j ∈ ds, j < k) → keepFrom ds k l = l := by
  intro k l
  induction l generalizing k with
  | nil => intro _; rfl
  | cons a as ih =>
    intro hall
    have hk : k ∉ ds := fun hmem => lt_irrefl k (hall k hmem)
    simp only [keepFrom, if_neg hk]
    rw [ih (k + 1) (fun j hj => Nat.lt_succ_of_lt (hall j hj))]

theorem keepFrom_append {α : Type} (ds : List Nat) :
    ∀ (k : Nat) (A B : List α),
      keepFrom ds k (A ++ B) = keepFrom ds k A ++ keepFrom ds (k + A.length) B := by
  intro k A
  induction A generalizing k with
  | nil => intro B; simp [keepFrom]
  | cons a as ih =>
    intro B
    have harith : k + 1 + as.length = k + (as.length + 1) := by omega
    rw [List.cons_append]
    by_cases hk : k ∈ ds
    · simp only [keepFrom, if_pos hk, List.length_cons]
      rw [ih, harith]
    · simp only [keepFrom, if_neg hk, List.length_cons]
      rw [ih, harith, List.cons_append]

theorem keepFrom_congr {α : Type} (ds₁ ds₂ : List Nat) :
    ∀ (k : Nat) (l : List α),
      (∀ j, k ≤ j → j < k + l.length → (j ∈ ds₁ ↔ j ∈ ds₂)) →
      keepFrom ds₁ k l = keepFrom ds₂ k l := by
  intro k l
  induction l generalizing k with
  | nil => intro _; rfl
  | cons a as ih =>
    intro hiff
    have hk : k ∈ ds₁ ↔ k ∈ ds₂ :=
      hiff k (le_refl k) (by simp only [List.length_cons]; omega)
    have hrest := ih (k + 1)
      (fun j h₁ h₂ => hiff j (by omega) (by simp only [List.length_cons]; omega))
    by_cases h₁ : k ∈ ds₁
    · simp only [keepFrom, if_pos h₁, if_pos (hk.mp h₁), hrest]
    · simp only [keepFrom, if_neg h₁, if_neg (fun h => h₁ (hk.mpr h)), hrest]

theorem foldl_eraseIdx_append {α : Type} :
    ∀ (ds : List Nat) (A B : List α),
      (∀ p ∈ ds, 1 ≤ p ∧ p ≤ A.length) →
      List.Pairwise (fun a b => b < a) ds →
      ds.foldl (fun l p => l.eraseIdx (p - 1)) (A ++ B) =
        ds.foldl (fun l p => l.eraseIdx (p - 1)) A ++ B := by
  intro ds
  induction ds with
  | nil => intro A B _ _; rfl
  | cons q rest ih =>
    intro A B hb hs
    rcases hs with _ | ⟨hq, hrest⟩
    obtain ⟨hq1, hq2⟩ := hb q (List.mem_cons_self _ _)
    have hqlt : q - 1 < A.length := by omega
    simp only [List.foldl_cons]
    rw [List.eraseIdx_append_of_lt_length hqlt]
    refine ih _ B ?_ hrest
    intro p hp
    obtain ⟨hp1, _⟩ := hb p (List.mem_cons_of_mem _ hp)
    have hplt : p < q := hq p hp
    rw [List.length_eraseIdx, if_pos hqlt]
    exact ⟨hp1, by omega⟩

theorem foldl_eraseIdx_eq_keepFrom {α : Type} :
    ∀ (ds : List Nat) (ids : List α),
      List.Pairwise (fun a b => b < a) ds →
      (∀ p ∈ ds, 1 ≤ p ∧ p ≤ ids.length) →
      ds.foldl (fun l p => l.eraseIdx (p - 1)) ids = keepFrom ds 1 ids := by
  intro ds
  induction ds with
  | nil => intro ids _ _; exact (keepFrom_of_all_lt [] 1 ids (by simp)).symm
  | cons p rest ih =>
    intro ids hs hb
    rcases hs with _ | ⟨hp, hrest⟩
    obtain ⟨hp1, hp2⟩ := hb p (List.mem_cons_self _ _)
    have hplt : p - 1 < ids.length := by omega
    have htake : (List.take (p - 1) ids).length = p - 1 := by
      rw [List.length_take]; omega
    have hbrest : ∀ q ∈ rest, 1 ≤ q ∧ q ≤ (List.take (p - 1) ids).length := by
      intro q hq
      obtain ⟨h1, _⟩ := hb q (List.mem_cons_of_mem _ hq)
      have : q < p := hp q hq
      rw [htake]
      exact ⟨h1, by omega⟩
    have lhs_eq :
        (p :: rest).foldl (fun l q => l.eraseIdx (q - 1)) ids =
          keepFrom rest 1 (List.take (p - 1) ids) ++ List.drop p ids := by
      simp only [List.foldl_cons]
      rw [List.eraseIdx_eq_take_drop_succ]
      have hsucc : p - 1 + 1 = p := by omega
      rw [hsucc]
      rw [foldl_eraseIdx_append rest _ _ hbrest hrest]
      rw [ih (List.take (p - 1) ids) hrest hbrest]
    rw [lhs_eq]
    have hdecomp : ids = List.take (p - 1) ids ++ List.drop (p - 1) ids :=
      (List.take_append_drop _ _).symm
    conv_rhs => rw [hdecomp]
    rw [keepFrom_append, htake]
    have h1p : 1 + (p - 1) = p := by omega
    rw [h1p]
    rw [List.drop_eq_getElem_cons hplt]
    have hpeq : p - 1 + 1 = p := by omega
    rw [hpeq]
    have hmemp : p ∈ p :: rest := List.mem_cons_self _ _
    simp only [keepFrom, if_pos hmemp]
    have hdrop : keepFrom (p :: rest) (p + 1) (List.drop p ids) = List.drop p ids := by
      refine keepFrom_of_all_lt _ _ _ ?_
      intro j hj
      rcases List.mem_cons.mp hj with rfl | hj
      · omega
      · have := hp j hj; omega
    rw [hdrop]
    have hcongr :
        keepFrom (p :: rest) 1 (List.take (p - 1) ids) =
          keepFrom rest 1 (List.take (p - 1) ids) := by
      refine keepFrom_congr _ _ 1 _ ?_
      intro j hj1 hj2
      rw [htake] at hj2
      have hjp : j ≠ p := by omega
      simp [List.mem_cons, hjp]
    rw [hcongr]

theorem foldl_eraseIdx_length {α : Type} :
    ∀ (ds : List Nat) (ids : List α),
      List.Pairwise (fun a b => b < a) ds →
      (∀ p ∈ ds, 1 ≤ p ∧ p ≤ ids.length) →
      (ds.foldl (fun l p => l.eraseIdx (p - 1)) ids).length =
        ids.length - ds.length := by
  intro ds
  induction ds with
  | nil => intro ids _ _; simp
  | cons q rest ih =>
    intro ids hs hb
    rcases hs with _ | ⟨hq, hrest⟩
    obtain ⟨hq1, hq2⟩ := hb q (List.mem_cons_self _ _)
    have hqlt : q - 1 < ids.length := by omega
    have hlen : (ids.eraseIdx (q - 1)).length = ids.length - 1 := by
      rw [List.length_eraseIdx, if_pos hqlt]
    simp only [List.foldl_cons]
    rw [ih (ids.eraseIdx (q - 1)) hrest ?_]
    · rw [hlen]
      simp only [List.length_cons]
      omega
    · intro p hp
      obtain ⟨h1, _⟩ := hb p (List.mem_cons_of_mem _ hp)
      have : p < q := hq p hp
      rw [hlen]
      exact ⟨h1, by omega⟩

/-- C6: for a valid request — distinct, in-range, 1-indexed page numbers,
fewer than the page count — `delete_pages` succeeds; because it deletes in
descending order, each number still names its originally intended page, so
the survivors are exactly the non-requested original pages in their
original order (`keepFrom`), and the output page count is the input count
minus the number of requested pages. -/
theorem delete_pages_survivors (pageIds : List ObjectId) (toDelete : List Nat)
    (hnd : toDelete.Nodup)
    (hrange : ∀ p ∈ toDelete, 1 ≤ p ∧ p ≤ pageIds.length)
    (hlt : toDelete.length < pageIds.length) :
    delete_pages pageIds toDelete = .ok (keepFrom toDelete 1 pageIds) ∧
    (keepFrom toDelete 1 pageIds).length = pageIds.length - toDelete.length := by
  have hany : ¬ toDelete.any (fun p => decide (p = 0 ∨ pageIds.length < p)) = true := by
    rw [Bool.not_eq_true, List.any_eq_false]
    intro p hp
    have := hrange p hp
    simp only [decide_eq_true_eq, not_or]
    omega
  have hperm := sortDesc_perm toDelete
  have hsorted : List.Pairwise (fun a b => b < a) (sortDesc toDelete) := by
    have h1 := sortDesc_sorted toDelete
    have h2 : (sortDesc toDelete).Nodup := hperm.nodup_iff.mpr hnd
    exact (h1.and h2).imp (fun h => lt_of_le_of_ne h.1 (Ne.symm h.2))
  have hmem : ∀ p ∈ sortDesc toDelete, 1 ≤ p ∧ p ≤ pageIds.length :=
    fun p hp => hrange p (hperm.mem_iff.mp hp)
  have hmain := foldl_eraseIdx_eq_keepFrom (sortDesc toDelete) pageIds hsorted hmem
  have hcongr : keepFrom (sortDesc toDelete) 1 pageIds = keepFrom toDelete 1 pageIds :=
    keepFrom_congr _ _ 1 pageIds (fun j _ _ => hperm.mem_iff)
  have hlen2 : ¬ pageIds.length ≤ toDelete.length := by omega
  constructor
  · simp only [delete_pages]
    rw [if_neg hany, if_neg hlen2]
    rw [hmain, hcongr]
  · rw [← hcongr, ← hmain]
    rw [foldl_eraseIdx_length (sortDesc toDelete) pageIds hsorted hmem]
    rw [hperm.length_eq]

/-- Witness for C6: deleting page `{2}` from a 3-page document leaves
original pages 1 and 3, in that order. -/
theorem delete_pages_survivors_witness :
    delete_pages [(1, 0), (2, 0), (3, 0)] [2] = .ok [(1, 0), (3, 0)] ∧
    ([(1, 0), (3, 0)] : List ObjectId).length = 3 - 1 := by
  have h := delete_pages_survivors [(1, 0), (2, 0), (3, 0)] [2]
    (by simp) (by simp) (by simp)
  exact ⟨h.1, rfl⟩

/-! ## C4 and C10: the watermark heuristic remover -/

theorem removePass_count (l : List ObjectId) :
    ∀ objs : OMap, (removePass objs l).2 = l.length := by
  induction l with
  | nil => intro objs; rfl
  | cons id rest ih =>
    intro objs
    simp only [removePass, ih, List.length_cons]
    omega

theorem annotPass_accum (toRemove : List ObjectId) :
    ∀ (pages : List ObjectId) (objs : OMap) (items : Nat),
      (annotPass toRemove objs items pages).2 =
        items + (annotPass toRemove objs 0 pages).2 := by
  intro pages
  induction pages with
  | nil => intro objs items; simp [annotPass]
  | cons pageId rest ih =>
    intro objs items
    cases hpl : alookup objs pageId with
    | none =>
      simp only [annotPass, hpl]
      exact ih objs items
    | some o =>
      cases o
      case dictionary pageDict =>
        cases hga : pageDict.get bAnnots with
        | none =>
          simp only [annotPass, hpl, hga]
          exact ih objs items
        | some a =>
          cases a
          case array annotArr =>
            simp only [annotPass, hpl, hga]
            by_cases hwm : (collectWmAnnots objs toRemove annotArr).isEmpty
            · rw [if_pos hwm, if_pos hwm]
              exact ih objs items
            · rw [if_neg hwm, if_neg hwm]
              rw [ih _ (items + (collectWmAnnots objs toRemove annotArr).length),
                ih _ (0 + (collectWmAnnots objs toRemove annotArr).length)]
              omega
          all_goals
            simp only [annotPass, hpl, hga]
            exact ih objs items
      all_goals
        simp only [annotPass, hpl]
        exact ih objs items

theorem collectWmAnnots_nil (objs : OMap) (h : objectsToRemove objs = []) :
    ∀ arr : ObjList, collectWmAnnots objs [] arr = []
  | .nil => rfl
  | .cons el rest => by
    have hmatch : annotMatches objs [] el = none := by
      cases el
      case reference aid =>
        have hc : (([] : List ObjectId).contains aid) = false := rfl
        simp only [annotMatches, hc, Bool.false_eq_true, if_false]
        cases hal : alookup objs aid with
        | none => simp
        | some o =>
          cases o
          case dictionary ad =>
            by_cases hsw : subtypeIsWatermark ad = true
            · exfalso
              have hmem : (aid, Object.dictionary ad) ∈ objs := alookup_mem hal
              have haid : aid ∈ objectsToRemove objs := by
                simp only [objectsToRemove, List.mem_flatten]
                refine ⟨pushesFor aid (.dictionary ad), ?_, ?_⟩
                · exact List.mem_map_of_mem _ hmem
                · simp [pushesFor, hsw]
              rw [h] at haid
              exact absurd haid (List.not_mem_nil aid)
            · simp [hsw]
          all_goals simp
      all_goals rfl
    simp only [collectWmAnnots, hmatch, List.nil_append]
    exact collectWmAnnots_nil objs h rest

theorem annotPass_of_empty (objs : OMap) (h : objectsToRemove objs = []) :
    ∀ (pages : List ObjectId) (items : Nat),
      annotPass [] objs items pages = (objs, items) := by
  intro pages
  induction pages with
  | nil => intro items; rfl
  | cons pageId rest ih =>
    intro items
    cases hpl : alookup objs pageId with
    | none =>
      simp only [annotPass, hpl]
      exact ih items
    | some o =>
      cases o
      case dictionary pageDict =>
        cases hga : pageDict.get bAnnots with
        | none =>
          simp only [annotPass, hpl, hga]
          exact ih items
        | some a =>
          cases a
          case array annotArr =>
            have hwm : collectWmAnnots objs [] annotArr = [] :=
              collectWmAnnots_nil objs h annotArr
            simp only [annotPass, hpl, hga, hwm, List.isEmpty_nil, if_pos]
            exact ih items
          all_goals
            simp only [annotPass, hpl, hga]
            exact ih items
      all_goals
        simp only [annotPass, hpl]
        exact ih items

/-- C10: on every loadable input in which no watermark pattern matches,
`remove_watermark` still saves the (unchanged) document and returns
success = false with items_removed = 0: a nothing-found outcome is not an
error and always produces an output document. -/
theorem watermark_none_found_ok (d : Document)
    (h : objectsToRemove d.objects = []) :
    (remove_watermark d).1 = d ∧
    (remove_watermark d).2.success = false ∧
    (remove_watermark d).2.items_removed = 0 := by
  have hrp : removePass d.objects [] = (d.objects, 0) := rfl
  have hap := annotPass_of_empty d.objects h
  simp only [remove_watermark, h, hrp]
  rw [hap]
  exact ⟨rfl, rfl, rfl⟩

/-- Witness for C10 on a concrete pattern-free document. -/
theorem watermark_none_found_ok_witness :
    (remove_watermark cleanDoc).1 = cleanDoc ∧
    (remove_watermark cleanDoc).2.success = false ∧
    (remove_watermark cleanDoc).2.items_removed = 0 :=
  watermark_none_found_ok cleanDoc rfl

/-- C4 counterexample: on `wmAnnotDoc` — whose single object matches both
the `Subtype` rule and the `Type`/`Subtype` rule, in a document with no
pages and hence no annotation references dropped — `remove_watermark`
reports `items_removed = 2`, not the claimed one-per-distinct-object count
`1 + 0`. -/
theorem watermark_count_counterexample :
    (objectsToRemove wmAnnotDoc.objects).dedup.length = 1 ∧
    getPages { wmAnnotDoc with
        objects := (removePass wmAnnotDoc.objects
          (objectsToRemove wmAnnotDoc.objects)).1 } = [] ∧
    (remove_watermark wmAnnotDoc).2.items_removed = 2 ∧
    ¬ (remove_watermark wmAnnotDoc).2.items_removed =
        (objectsToRemove wmAnnotDoc.objects).dedup.length + 0 :=
  ⟨rfl, rfl, rfl, by decide⟩

/-- C4 (amended): `items_removed` equals the number of detection-rule hits
over top-level objects — an object is pushed once per matching rule, so an
object matching several rules is removed once but counted once per rule —
plus the number of annotation references dropped from page `Annots`
arrays; `success` is true exactly when `items_removed > 0`; a document
with one object named `Watermark1` and no watermark-tagged annotations
reports 1/true, and a document with no matching patterns reports 0/false
and leaves the object count unchanged. -/
theorem watermark_count_rule_hits :
    (∀ d : Document,
      (remove_watermark d).2.items_removed =
        (objectsToRemove d.objects).length + droppedCount d) ∧
    (∀ d : Document,
      (remove_watermark d).2.success = true ↔
        0 < (remove_watermark d).2.items_removed) ∧
    ((remove_watermark wmNameDoc).2.items_removed = 1 ∧
      (remove_watermark wmNameDoc).2.success = true) ∧
    ((remove_watermark cleanDoc).2.items_removed = 0 ∧
      (remove_watermark cleanDoc).2.success = false ∧
      (remove_watermark cleanDoc).1.objects.length = cleanDoc.objects.length) := by
  refine ⟨?_, ?_, ⟨rfl, rfl⟩, ⟨rfl, rfl, rfl⟩⟩
  · intro d
    simp only [remove_watermark, droppedCount]
    rw [annotPass_accum, removePass_count]
  · intro d
    constructor
    · intro hs
      exact of_decide_eq_true hs
    · intro hs
      exact decide_eq_true hs

/-! ## Merge machinery: update_references, the copy loop, the update loop -/

theorem updO_reference_not_mem (m : IdMap) (r : ObjectId) (h : alookup m r = none) :
    updO m (.reference r) = .reference r := by simp [updO, h]

theorem updO_reference_mem (m : IdMap) (r n : ObjectId) (h : alookup m r = some n) :
    updO m (.reference r) = .reference n := by simp [updO, h]

mutual

theorem refsOfO_updO (m : IdMap) : ∀ o : Object,
    refsOfO (updO m o) = (refsOfO o).map (remapF m)
  | .null => rfl
  | .boolean b => rfl
  | .integer i => rfl
  | .real r => rfl
  | .string s => rfl
  | .name n => rfl
  | .array xs => by simp [updO, refsOfO, refsOfL_updL m xs]
  | .dictionary d => by simp [updO, refsOfO, refsOfD_updD m d]
  | .stream d p => by simp [updO, refsOfO, refsOfD_updD m d]
  | .reference id => by
    cases h : alookup m id <;> simp [updO, refsOfO, remapF, h]

theorem refsOfL_updL (m : IdMap) : ∀ xs : ObjList,
    refsOfL (updL m xs) = (refsOfL xs).map (remapF m)
  | .nil => rfl
  | .cons o rest => by
    simp [updL, refsOfL, refsOfO_updO m o, refsOfL_updL m rest]

theorem refsOfD_updD (m : IdMap) : ∀ d : Dict,
    refsOfD (updD m d) = (refsOfD d).map (remapF m)
  | .nil => rfl
  | .cons k v rest => by
    simp [updD, refsOfD, refsOfO_updO m v, refsOfD_updD m rest]

end

theorem Dict.get_updD (m : IdMap) : ∀ (d : Dict) (k : Bytes),
    (updD m d).get k = (d.get k).map (updO m)
  | .nil, k => rfl
  | .cons k₀ v rest, k => by
    by_cases hk : k₀ = k <;> simp [updD, Dict.get, hk, Dict.get_updD m rest k]

theorem ains_eq_append {α : Type} (l : List (ObjectId × α)) (id : ObjectId) (v : α)
    (h : alookup l id = none) : ains l id v = l ++ [(id, v)] := by
  induction l with
  | nil => rfl
  | cons p rest ih =>
    obtain ⟨k, w⟩ := p
    by_cases hk : k = id
    · simp [alookup, hk] at h
    · simp only [alookup, if_neg hk] at h
      simp [ains, hk, ih h]

theorem mem_alookup_of_nodup {α : Type} {l : List (ObjectId × α)} {x : ObjectId}
    {v : α} (hnd : (akeys l).Nodup) (hm : (x, v) ∈ l) : alookup l x = some v := by
  induction l with
  | nil => simp at hm
  | cons p rest ih =>
    obtain ⟨k, w⟩ := p
    simp only [akeys, List.map_cons, List.nodup_cons] at hnd
    rcases List.mem_cons.mp hm with heq | hm'
    · cases heq
      simp [alookup]
    · have hk : ¬ k = x := by
        intro hkx
        subst hkx
        exact hnd.1 (List.mem_map_of_mem Prod.fst hm')
      simp only [alookup, if_neg hk]
      exact ih hnd.2 hm'

theorem keyNumsLe_iff (d : Document) :
    keyNumsLeB d = true ↔ ∀ p ∈ d.objects, p.1.1 ≤ d.maxId := by
  simp [keyNumsLeB, List.all_eq_true]

theorem refsResolve_iff (d : Document) :
    refsResolveB d = true ↔
      ∀ p ∈ d.objects, ∀ r ∈ refsOfO p.2, (alookup d.objects r).isSome = true := by
  simp [refsResolveB, List.all_eq_true, akeyMem]

/-! ### Closed form of the copy loop -/

theorem stampObjs_mem : ∀ (l : List (ObjectId × Object)) (mid : Nat)
    (p : ObjectId × Object), p ∈ stampObjs mid l →
    mid < p.1.1 ∧ p.1.1 ≤ mid + l.length ∧ p.1.2 = 0 := by
  intro l
  induction l with
  | nil => intro mid p hp; simp [stampObjs] at hp
  | cons hd rest ih =>
    intro mid p hp
    obtain ⟨k, v⟩ := hd
    rcases List.mem_cons.mp hp with heq | hp'
    · subst heq
      simp only [List.length_cons]
      refine ⟨?_, ?_, trivial⟩
      · show mid < mid + 1
        omega
      · show mid + 1 ≤ mid + (rest.length + 1)
        omega
    · obtain ⟨h1, h2, h3⟩ := ih (mid + 1) p hp'
      simp only [List.length_cons]
      exact ⟨by omega, by omega, h3⟩

theorem stampObjs_keys_nodup : ∀ (l : List (ObjectId × Object)) (mid : Nat),
    (akeys (stampObjs mid l)).Nodup := by
  intro l
  induction l with
  | nil => intro mid; simp [stampObjs, akeys]
  | cons hd rest ih =>
    intro mid
    obtain ⟨k, v⟩ := hd
    simp only [stampObjs, akeys, List.map_cons, List.nodup_cons]
    constructor
    · intro hmem
      rcases List.mem_map.mp hmem with ⟨p, hp, hfst⟩
      obtain ⟨h1, _, _⟩ := stampObjs_mem rest (mid + 1) p hp
      rw [hfst] at h1
      omega
    · exact ih (mid + 1)

theorem stampMap_vals_eq_keys : ∀ (l : List (ObjectId × Object)) (mid : Nat),
    (stampMap mid l).map Prod.snd = akeys (stampObjs mid l) := by
  intro l
  induction l with
  | nil => intro mid; rfl
  | cons hd rest ih =>
    intro mid
    obtain ⟨k, v⟩ := hd
    simp only [stampMap, stampObjs, akeys, List.map_cons]
    rw [ih (mid + 1)]
    rfl

theorem stampMap_keys : ∀ (l : List (ObjectId × Object)) (mid : Nat),
    akeys (stampMap mid l) = akeys l := by
  intro l
  induction l with
  | nil => intro mid; rfl
  | cons hd rest ih =>
    intro mid
    obtain ⟨k, v⟩ := hd
    simp only [stampMap, akeys, List.map_cons]
    rw [← akeys, ih (mid + 1)]
    rfl

theorem stampMap_mem : ∀ (l : List (ObjectId × Object)) (mid : Nat)
    (pr : ObjectId × ObjectId), pr ∈ stampMap mid l →
    mid < pr.2.1 ∧ pr.2.1 ≤ mid + l.length ∧ pr.2.2 = 0 := by
  intro l
  induction l with
  | nil => intro mid pr hpr; simp [stampMap] at hpr
  | cons hd rest ih =>
    intro mid pr hpr
    obtain ⟨k, v⟩ := hd
    rcases List.mem_cons.mp hpr with heq | hpr'
    · subst heq
      simp only [List.length_cons]
      refine ⟨?_, ?_, trivial⟩
      · show mid < mid + 1
        omega
      · show mid + 1 ≤ mid + (rest.length + 1)
        omega
    · obtain ⟨h1, h2, h3⟩ := ih (mid + 1) pr hpr'
      simp only [List.length_cons]
      exact ⟨by omega, by omega, h3⟩

theorem stamp_lookup : ∀ (l : List (ObjectId × Object)) (mid : Nat)
    (k : ObjectId) (v : Object), (akeys l).Nodup → alookup l k = some v →
    ∃ nid, alookup (stampMap mid l) k = some nid ∧
      alookup (stampObjs mid l) nid = some v ∧
      mid < nid.1 ∧ nid.1 ≤ mid + l.length ∧ nid.2 = 0 := by
  intro l
  induction l with
  | nil => intro mid k v _ hl; simp [alookup] at hl
  | cons hd rest ih =>
    intro mid k v hnd hl
    obtain ⟨k₀, v₀⟩ := hd
    simp only [akeys, List.map_cons, List.nodup_cons] at hnd
    by_cases hk : k₀ = k
    · subst hk
      simp only [alookup, if_pos rfl] at hl
      cases hl
      refine ⟨(mid + 1, 0), ?_, ?_, ?_, ?_, rfl⟩
      · simp [stampMap, alookup]
      · simp [stampObjs, alookup]
      · show mid < mid + 1
        omega
      · show mid + 1 ≤ mid + (rest.length + 1)
        omega
    · simp only [alookup, if_neg hk] at hl
      obtain ⟨nid, hm, ho, h1, h2, h3⟩ := ih (mid + 1) k v hnd.2 hl
      refine ⟨nid, ?_, ?_, by omega, ?_, h3⟩
      · simp only [stampMap, alookup, if_neg hk]
        exact hm
      · simp only [stampObjs, alookup]
        rw [if_neg ?_]
        · exact ho
        · intro heq
          rw [← heq] at h1
          simp at h1
      · simp only [List.length_cons]
        omega

theorem stampObjs_lookup_src : ∀ (l : List (ObjectId × Object)) (mid : Nat)
    (x : ObjectId) (v : Object), alookup (stampObjs mid l) x = some v →
    ∃ k, (k, v) ∈ l := by
  intro l
  induction l with
  | nil => intro mid x v hl; simp [stampObjs, alookup] at hl
  | cons hd rest ih =>
    intro mid x v hl
    obtain ⟨k₀, v₀⟩ := hd
    simp only [stampObjs, alookup] at hl
    by_cases hx : (mid + 1, 0) = x
    · rw [if_pos hx] at hl
      cases hl
      exact ⟨k₀, List.mem_cons_self _ _⟩
    · rw [if_neg hx] at hl
      obtain ⟨k, hk⟩ := ih (mid + 1) x v hl
      exact ⟨k, List.mem_cons_of_mem _ hk⟩

theorem copyPh_closed :
    ∀ (l : List (ObjectId × Object)) (objs : OMap) (m : IdMap) (mid : Nat),
      (∀ p ∈ objs, p.1.1 ≤ mid) →
      (∀ k ∈ akeys m, k ∉ akeys l) →
      (akeys l).Nodup →
      mid + l.length < U32 →
      copyPh objs m mid l =
        (objs ++ stampObjs mid l, m ++ stampMap mid l, mid + l.length) := by
  intro l
  induction l with
  | nil => intro objs m mid _ _ _ _; simp [copyPh, stampObjs, stampMap]
  | cons hd rest ih =>
    intro objs m mid hnums hdisj hnd hbound
    obtain ⟨k₀, v₀⟩ := hd
    simp only [List.length_cons] at hbound
    have hmod : (mid + 1) % U32 = mid + 1 := Nat.mod_eq_of_lt (by omega)
    simp only [akeys, List.map_cons, List.nodup_cons] at hnd
    have hobjsnone : alookup objs (mid + 1, 0) = none := by
      rw [alookup_eq_none_iff]
      intro hmem
      rcases List.mem_map.mp hmem with ⟨p, hp, hfst⟩
      have := hnums p hp
      rw [hfst] at this
      simp at this
    have hmnone : alookup m k₀ = none := by
      rw [alookup_eq_none_iff]
      intro hmem
      exact hdisj k₀ hmem (by simp [akeys])
    have hnums' : ∀ p ∈ objs ++ [((mid + 1, 0), v₀)], p.1.1 ≤ mid + 1 := by
      intro p hp
      rcases List.mem_append.mp hp with hp' | hp'
      · have := hnums p hp'
        omega
      · simp only [List.mem_singleton] at hp'
        subst hp'
        show mid + 1 ≤ mid + 1
        omega
    have hdisj' : ∀ k ∈ akeys (m ++ [(k₀, (mid + 1, 0))]), k ∉ akeys rest := by
      intro k hk hkrest
      rw [akeys_append] at hk
      rcases List.mem_append.mp hk with hk' | hk'
      · refine hdisj k hk' ?_
        simp only [akeys, List.map_cons]
        exact List.mem_cons_of_mem _ hkrest
      · simp only [akeys, List.map_cons, List.map_nil, List.mem_singleton] at hk'
        subst hk'
        exact hnd.1 (by simpa [akeys] using hkrest)
    simp only [copyPh, hmod]
    rw [ains_eq_append objs _ _ hobjsnone, ains_eq_append m _ _ hmnone]
    rw [ih (objs ++ [((mid + 1, 0), v₀)]) (m ++ [(k₀, (mid + 1, 0))]) (mid + 1)
      hnums' hdisj' hnd.2 (by omega)]
    have h3 : mid + 1 + rest.length = mid + (rest.length + 1) := by omega
    simp only [stampObjs, stampMap, List.length_cons, h3, List.append_assoc,
      List.singleton_append]

/-! ### The reference-update loop -/

theorem updPh_keys (full : IdMap) :
    ∀ (q : IdMap) (objs : OMap), akeys (updPh full objs q) = akeys objs := by
  intro q
  induction q with
  | nil => intro objs; rfl
  | cons pr rest ih =>
    intro objs
    obtain ⟨a, nid⟩ := pr
    cases hl : alookup objs nid with
    | none => simp only [updPh, hl]; exact ih objs
    | some o =>
      simp only [updPh, hl]
      rw [ih _, akeys_aset]

theorem updPh_lookup (full : IdMap) :
    ∀ (q : IdMap) (objs : OMap), (q.map Prod.snd).Nodup →
      ∀ x, alookup (updPh full objs q) x =
        if x ∈ q.map Prod.snd then (alookup objs x).map (updO full)
        else alookup objs x := by
  intro q
  induction q with
  | nil => intro objs _ x; simp [updPh]
  | cons pr rest ih =>
    intro objs hnd x
    obtain ⟨a, nid⟩ := pr
    simp only [List.map_cons, List.nodup_cons] at hnd
    by_cases hx : x = nid
    · subst hx
      have hnotrest : x ∉ rest.map Prod.snd := hnd.1
      cases hl : alookup objs x with
      | none =>
        simp only [updPh, hl]
        rw [ih objs hnd.2 x, if_neg hnotrest, hl]
        simp [List.mem_cons]
      | some o =>
        simp only [updPh, hl]
        rw [ih _ hnd.2 x, if_neg hnotrest]
        rw [alookup_aset_self objs x (updO full o) o hl]
        simp [List.mem_cons, hl]
    · have hmem : x ∈ ((a, nid) :: rest).map Prod.snd ↔ x ∈ rest.map Prod.snd := by
        simp [List.map_cons, List.mem_cons, hx]
      cases hl : alookup objs nid with
      | none =>
        simp only [updPh, hl]
        rw [ih objs hnd.2 x]
        simp only [hmem]
      | some o =>
        simp only [updPh, hl]
        rw [ih _ hnd.2 x]
        have hne : ¬ nid = x := fun h => hx h.symm
        rw [alookup_aset_ne objs nid (updO full o) x hne]
        simp only [hmem]

/-! ### The page-splicing loop -/

theorem ObjList.app_nil : ∀ x : ObjList, x ++ ObjList.nil = x
  | .nil => rfl
  | .cons o rest => by rw [ObjList.cons_app, ObjList.app_nil rest]

theorem ObjList.app_assoc : ∀ x y z : ObjList, x ++ y ++ z = x ++ (y ++ z)
  | .nil, y, z => rfl
  | .cons o rest, y, z => by
    rw [ObjList.cons_app, ObjList.cons_app, ObjList.cons_app,
      ObjList.app_assoc rest]

theorem bKids_ne_bCount : ¬ bKids = bCount := by decide

theorem bPages_ne_bKids : ¬ bPages = bKids := by decide

theorem bPages_ne_bCount : ¬ bPages = bCount := by decide

theorem pushKid_get_ne (pd : Dict) (nid : ObjectId) (k : Bytes)
    (h : ¬ bKids = k) : (pushKid pd nid).get k = pd.get k := by
  unfold pushKid
  split
  · exact Dict.get_set_ne pd bKids k _ h
  · rfl

theorem pushKid_get_kids (pd : Dict) (nid : ObjectId) (kids : ObjList)
    (hga : pd.get bKids = some (.array kids)) :
    (pushKid pd nid).get bKids =
      some (.array (kids ++ ObjList.cons (.reference nid) .nil)) := by
  unfold pushKid
  rw [hga]
  exact Dict.get_set_self pd bKids _

theorem pushKid_refs (pd : Dict) (nid : ObjectId) :
    ∀ r ∈ refsOfD (pushKid pd nid), r ∈ refsOfD pd ∨ r = nid := by
  intro r hr
  unfold pushKid at hr
  split at hr
  · rename_i kids hga
    rcases refsOfD_set_sub _ _ _ _ hr with h | h
    · have : refsOfO (Object.array (kids ++ ObjList.cons (.reference nid) .nil)) =
          refsOfL kids ++ [nid] := by
        show refsOfL (kids ++ ObjList.cons (.reference nid) .nil) = _
        rw [refsOfL_app]
        rfl
      rw [this] at h
      rcases List.mem_append.mp h with h' | h'
      · left
        exact refsOfD_get_sub pd bKids (.array kids) r hga h'
      · right
        simpa using h'
    · left; exact h
  · left; exact hr

theorem bumpCount_get_ne (pd : Dict) (k : Bytes) (h : ¬ bCount = k) :
    (bumpCount pd).get k = pd.get k := by
  unfold bumpCount
  split
  · exact Dict.get_set_ne pd bCount k _ h
  · rfl

theorem bumpCount_refs (pd : Dict) :
    ∀ r ∈ refsOfD (bumpCount pd), r ∈ refsOfD pd := by
  intro r hr
  unfold bumpCount at hr
  split at hr
  · rcases refsOfD_set_sub _ _ _ _ hr with h | h
    · simp [refsOfO] at h
    · exact h
  · exact hr

theorem spliceOne_ok (d : Document) (nid rid pid : ObjectId) (cat pd : Dict)
    (hroot : d.trailer.get bRoot = some (.reference rid))
    (hcat : alookup d.objects rid = some (.dictionary cat))
    (hpages : cat.get bPages = some (.reference pid))
    (hpd : alookup d.objects pid = some (.dictionary pd)) :
    spliceOne d nid = .ok { d with
      objects := aset d.objects pid
        (.dictionary (bumpCount (pushKid pd nid))) } := by
  simp only [spliceOne, hroot, hcat, hpages, hpd]

theorem spliceOne_cases (d : Document) (nid : ObjectId) (d' : Document)
    (h : spliceOne d nid = .ok d') :
    d'.trailer = d.trailer ∧ d'.maxId = d.maxId ∧
    akeys d'.objects = akeys d.objects ∧
    (d'.objects = d.objects ∨
      ∃ pid pd, alookup d.objects pid = some (.dictionary pd) ∧
        d'.objects = aset d.objects pid
          (.dictionary (bumpCount (pushKid pd nid)))) := by
  unfold spliceOne at h
  split at h
  · split at h
    · split at h
      · rename_i cat hcat pid hpages
        split at h
        · rename_i pd hpd
          cases h
          exact ⟨rfl, rfl, akeys_aset _ _ _, Or.inr ⟨pid, pd, hpd, rfl⟩⟩
        · cases h
          exact ⟨rfl, rfl, rfl, Or.inl rfl⟩
      · cases h
      · cases h
    · cases h
  · cases h
  · cases h

theorem spliceAll_resolves (m : IdMap) :
    ∀ (pages : List ObjectId) (d d' : Document),
      spliceAll m d pages = .ok d' →
      (∀ p nid, alookup m p = some nid → nid ∈ akeys d.objects) →
      (∀ x o, alookup d.objects x = some o → ∀ r ∈ refsOfO o, r ∈ akeys d.objects) →
      (∀ x o, alookup d'.objects x = some o → ∀ r ∈ refsOfO o, r ∈ akeys d'.objects) ∧
      akeys d'.objects = akeys d.objects ∧
      d'.trailer = d.trailer ∧ d'.maxId = d.maxId := by
  intro pages
  induction pages with
  | nil =>
    intro d d' h hm hres
    cases h
    exact ⟨hres, rfl, rfl, rfl⟩
  | cons p ps ih =>
    intro d d' h hm hres
    cases hmp : alookup m p with
    | none =>
      simp only [spliceAll, hmp] at h
      exact ih d d' h hm hres
    | some nid =>
      cases hso : spliceOne d nid with
      | error e =>
        simp only [spliceAll, hmp, hso] at h
        exact absurd h (by simp)
      | ok dmid =>
        simp only [spliceAll, hmp, hso] at h
        obtain ⟨htr, hmax, hkeys, hobj⟩ := spliceOne_cases d nid dmid hso
        have hnidmem : nid ∈ akeys d.objects := hm p nid hmp
        have hresmid : ∀ x o, alookup dmid.objects x = some o →
            ∀ r ∈ refsOfO o, r ∈ akeys dmid.objects := by
          rcases hobj with heq | ⟨pid, pd, hpd, heq⟩
          · rw [heq]
            exact hres
          · intro x o hx r hr
            rw [hkeys]
            rw [heq] at hx
            by_cases hxp : x = pid
            · subst hxp
              have hself := alookup_aset_self d.objects x
                (Object.dictionary (bumpCount (pushKid pd nid))) _ hpd
              rw [hself] at hx
              cases hx
              have hr' : r ∈ refsOfD (bumpCount (pushKid pd nid)) := hr
              have hr₂ := bumpCount_refs _ r hr'
              rcases pushKid_refs pd nid r hr₂ with h' | h'
              · exact hres x (.dictionary pd) hpd r h'
              · rw [h']
                exact hnidmem
            · have hne : ¬ pid = x := fun hh => hxp hh.symm
              rw [alookup_aset_ne d.objects pid _ x hne] at hx
              exact hres x o hx r hr
        have hmmid : ∀ p' nid', alookup m p' = some nid' →
            nid' ∈ akeys dmid.objects := by
          intro p' nid' hp'
          rw [hkeys]
          exact hm p' nid' hp'
        obtain ⟨hres', hkeys', htr', hmax'⟩ := ih dmid d' h hmmid hresmid
        exact ⟨hres', by rw [hkeys', hkeys], by rw [htr', htr], by rw [hmax', hmax]⟩

theorem spliceAll_spec (m : IdMap) :
    ∀ (pages : List ObjectId) (d : Document) (rid pid : ObjectId) (pd : Dict),
      (∀ p ∈ pages, (alookup m p).isSome = true) →
      d.trailer.get bRoot = some (.reference rid) →
      (∃ cat, alookup d.objects rid = some (.dictionary cat) ∧
        cat.get bPages = some (.reference pid)) →
      alookup d.objects pid = some (.dictionary pd) →
      (∃ kids₀, pd.get bKids = some (.array kids₀)) →
      ∃ objs' pd',
        spliceAll m d pages = .ok { d with objects := objs' } ∧
        akeys objs' = akeys d.objects ∧
        (∀ x, ¬ x = pid → alookup objs' x = alookup d.objects x) ∧
        alookup objs' pid = some (.dictionary pd') ∧
        (∀ kids, pd.get bKids = some (.array kids) →
          pd'.get bKids = some (.array (kids ++
            ObjList.ofList (pages.map
              (fun p => Object.reference ((alookup m p).getD p)))))) ∧
        (∀ k, ¬ k = bKids → ¬ k = bCount → pd'.get k = pd.get k) ∧
        (∀ r ∈ refsOfD pd', r ∈ refsOfD pd ∨
          ∃ p ∈ pages, r = (alookup m p).getD p) := by
  intro pages
  induction pages with
  | nil =>
    intro d rid pid pd _ hroot hcat hpd hkids
    refine ⟨d.objects, pd, rfl, rfl, fun x _ => rfl, hpd, ?_, fun k _ _ => rfl,
      fun r hr => Or.inl hr⟩
    intro kids hk
    rw [List.map_nil]
    rw [show ObjList.ofList ([] : List Object) = ObjList.nil from rfl]
    rw [ObjList.app_nil]
    exact hk
  | cons p ps ih =>
    intro d rid pid pd hpm hroot hcat hpd hkids
    obtain ⟨cat, hcatl, hpages⟩ := hcat
    obtain ⟨kids₀, hkids₀⟩ := hkids
    have hpsome : (alookup m p).isSome = true := hpm p (List.mem_cons_self _ _)
    obtain ⟨nid, hmp⟩ := Option.isSome_iff_exists.mp hpsome
    set pd₂ := bumpCount (pushKid pd nid) with hpd₂
    have hone := spliceOne_ok d nid rid pid cat pd hroot hcatl hpages hpd
    set d₁ : Document :=
      { d with objects := aset d.objects pid (.dictionary pd₂) } with hd₁
    have hlook₁ : alookup d₁.objects pid = some (.dictionary pd₂) :=
      alookup_aset_self d.objects pid _ _ hpd
    have hkids₂ : pd₂.get bKids =
        some (.array (kids₀ ++ ObjList.cons (.reference nid) .nil)) := by
      rw [hpd₂, bumpCount_get_ne _ _ (fun hh => bKids_ne_bCount hh.symm)]
      exact pushKid_get_kids pd nid kids₀ hkids₀
    have hcat₁ : ∃ cat', alookup d₁.objects rid = some (.dictionary cat') ∧
        cat'.get bPages = some (.reference pid) := by
      by_cases hrp : rid = pid
      · subst hrp
        refine ⟨pd₂, hlook₁, ?_⟩
        have hcd : cat = pd := by
          rw [hcatl] at hpd
          cases hpd
          rfl
        rw [hpd₂, bumpCount_get_ne _ _ (fun hh => bPages_ne_bCount hh.symm),
          pushKid_get_ne _ _ _ (fun hh => bPages_ne_bKids hh.symm)]
        rw [← hcd]
        exact hpages
      · have hne : ¬ pid = rid := fun hh => hrp hh.symm
        refine ⟨cat, ?_, hpages⟩
        rw [hd₁]
        show alookup (aset d.objects pid (.dictionary pd₂)) rid = _
        rw [alookup_aset_ne d.objects pid _ rid hne]
        exact hcatl
    have hpm' : ∀ q ∈ ps, (alookup m q).isSome = true :=
      fun q hq => hpm q (List.mem_cons_of_mem _ hq)
    obtain ⟨objs'', pd'', hrun, hkeys'', hoff'', hat'', hkidcl'', hother'', hrefs''⟩ :=
      ih d₁ rid pid pd₂ hpm' hroot hcat₁ hlook₁ ⟨_, hkids₂⟩
    refine ⟨objs'', pd'', ?_, ?_, ?_, hat'', ?_, ?_, ?_⟩
    · simp only [spliceAll, hmp, hone]
      exact hrun
    · rw [hkeys'']
      show akeys (aset d.objects pid (.dictionary pd₂)) = akeys d.objects
      exact akeys_aset _ _ _
    · intro x hx
      rw [hoff'' x hx]
      show alookup (aset d.objects pid (.dictionary pd₂)) x = _
      exact alookup_aset_ne d.objects pid _ x (fun hh => hx hh.symm)
    · intro kids hk
      rw [hkids₀] at hk
      cases hk
      have := hkidcl'' (kids₀ ++ ObjList.cons (.reference nid) .nil) hkids₂
      rw [this]
      rw [ObjList.app_assoc]
      simp only [List.map_cons, hmp, ObjList.ofList, Option.getD_some]
      rfl
    · intro k h1 h2
      rw [hother'' k h1 h2, hpd₂,
        bumpCount_get_ne _ _ (fun hh => h2 hh.symm),
        pushKid_get_ne _ _ _ (fun hh => h1 hh.symm)]
    · intro r hr
      rcases hrefs'' r hr with hr' | ⟨q, hq, hrq⟩
      · have hr₂ := bumpCount_refs _ r hr'
        rcases pushKid_refs pd nid r hr₂ with h' | h'
        · exact Or.inl h'
        · refine Or.inr ⟨p, List.mem_cons_self _ _, ?_⟩
          rw [hmp, h']
          rfl
      · exact Or.inr ⟨q, List.mem_cons_of_mem _ hq, hrq⟩

/-! ### Strict page-tree walk: inversion and constructors -/

theorem bPages_ne_bPage : ¬ bPages = bPage := by decide

theorem collectKidsA_zero (objs : OMap) (avoid : Option ObjectId)
    (kids : ObjList) :
    collectKidsA objs avoid 0 kids =
      collectKidsAGo objs avoid (fun _ => none) kids := rfl

theorem collectKidsA_succ (objs : OMap) (avoid : Option ObjectId)
    (fuel : Nat) (kids : ObjList) :
    collectKidsA objs avoid (fuel + 1) kids =
      collectKidsAGo objs avoid (collectKidsA objs avoid fuel) kids := rfl

theorem collectKidsL_zero (objs : OMap) (kids : ObjList) :
    collectKidsL objs 0 kids =
      collectKidsLGo objs (fun _ => []) kids := rfl

theorem collectKidsL_succ (objs : OMap) (fuel : Nat) (kids : ObjList) :
    collectKidsL objs (fuel + 1) kids =
      collectKidsLGo objs (collectKidsL objs fuel) kids := rfl

theorem collectKidsAGo_cons_inv (objs : OMap) (avoid : Option ObjectId)
    (deeper : ObjList → Option (List ObjectId))
    (o : Object) (rest : ObjList) (ps : List ObjectId)
    (h : collectKidsAGo objs avoid deeper (.cons o rest) = some ps) :
    ∃ kid, o = .reference kid ∧ ¬ avoid = some kid ∧
      ∃ dict, alookup objs kid = some (.dictionary dict) ∧
        ((dict.get bType = some (.name bPage) ∧
          ∃ ps', collectKidsAGo objs avoid deeper rest = some ps' ∧
            ps = kid :: ps') ∨
         (dict.get bType = some (.name bPages) ∧
          ∃ kk ps₁ ps₂,
            dict.get bKids = some (.array kk) ∧
            deeper kk = some ps₁ ∧
            collectKidsAGo objs avoid deeper rest = some ps₂ ∧
            ps = ps₁ ++ ps₂)) := by
  cases o
  case reference kid =>
    by_cases hav : avoid = some kid
    · simp [collectKidsAGo, hav] at h
    · simp only [collectKidsAGo, if_neg hav] at h
      refine ⟨kid, rfl, hav, ?_⟩
      split at h
      · rename_i dict hlk
        refine ⟨dict, hlk, ?_⟩
        split at h
        · rename_i t hty
          by_cases ht1 : t = bPage
          · subst ht1
            rw [if_pos rfl] at h
            split at h
            · rename_i ps' hrest
              cases h
              exact Or.inl ⟨hty, ps', hrest, rfl⟩
            · exact absurd h (by simp)
          · by_cases ht2 : t = bPages
            · subst ht2
              rw [if_neg ht1, if_pos rfl] at h
              split at h
              · rename_i kk hkk
                split at h
                · rename_i ps₁ ps₂ h1 h2
                  cases h
                  exact Or.inr ⟨hty, kk, ps₁, ps₂, hkk, h1, h2, rfl⟩
                · exact absurd h (by simp)
              · exact absurd h (by simp)
            · rw [if_neg ht1, if_neg ht2] at h
              exact absurd h (by simp)
        · exact absurd h (by simp)
      · exact absurd h (by simp)
  all_goals simp [collectKidsAGo] at h

theorem collectKidsAGo_cons_page (objs : OMap) (avoid : Option ObjectId)
    (deeper : ObjList → Option (List ObjectId))
    (kid : ObjectId) (rest : ObjList) (ps : List ObjectId) (dict : Dict)
    (hav : ¬ avoid = some kid)
    (hlk : alookup objs kid = some (.dictionary dict))
    (hty : dict.get bType = some (.name bPage))
    (hrest : collectKidsAGo objs avoid deeper rest = some ps) :
    collectKidsAGo objs avoid deeper (.cons (.reference kid) rest) =
      some (kid :: ps) := by
  simp [collectKidsAGo, if_neg hav, hlk, hty, hrest]

theorem collectKidsAGo_cons_pages (objs : OMap) (avoid : Option ObjectId)
    (deeper : ObjList → Option (List ObjectId))
    (kid : ObjectId) (rest kk : ObjList)
    (ps₁ ps₂ : List ObjectId) (dict : Dict)
    (hav : ¬ avoid = some kid)
    (hlk : alookup objs kid = some (.dictionary dict))
    (hty : dict.get bType = some (.name bPages))
    (hkk : dict.get bKids = some (.array kk))
    (h1 : deeper kk = some ps₁)
    (h2 : collectKidsAGo objs avoid deeper rest = some ps₂) :
    collectKidsAGo objs avoid deeper (.cons (.reference kid) rest) =
      some (ps₁ ++ ps₂) := by
  simp [collectKidsAGo, if_neg hav, hlk, hty, hkk, h1, h2, bPages_ne_bPage]

theorem collectKidsA_nil (objs : OMap) (avoid : Option ObjectId) (n : Nat) :
    collectKidsA objs avoid n ObjList.nil = some [] := by
  cases n
  · rw [collectKidsA_zero]
    rfl
  · rw [collectKidsA_succ]
    rfl

theorem collectKidsA_cons_inv (objs : OMap) (avoid : Option ObjectId)
    (fuel : Nat) (o : Object) (rest : ObjList) (ps : List ObjectId)
    (h : collectKidsA objs avoid fuel (.cons o rest) = some ps) :
    ∃ kid, o = .reference kid ∧ ¬ avoid = some kid ∧
      ∃ dict, alookup objs kid = some (.dictionary dict) ∧
        ((dict.get bType = some (.name bPage) ∧
          ∃ ps', collectKidsA objs avoid fuel rest = some ps' ∧ ps = kid :: ps') ∨
         (dict.get bType = some (.name bPages) ∧
          ∃ fuel' kk ps₁ ps₂, fuel = fuel' + 1 ∧
            dict.get bKids = some (.array kk) ∧
            collectKidsA objs avoid fuel' kk = some ps₁ ∧
            collectKidsA objs avoid (fuel' + 1) rest = some ps₂ ∧
            ps = ps₁ ++ ps₂)) := by
  cases fuel with
  | zero =>
    rw [collectKidsA_zero] at h
    obtain ⟨kid, rfl, hav, dict, hlk, hc⟩ :=
      collectKidsAGo_cons_inv _ _ _ _ _ _ h
    refine ⟨kid, rfl, hav, dict, hlk, ?_⟩
    rcases hc with ⟨hty, ps', hrest, rfl⟩ | ⟨hty, kk, ps₁, ps₂, hkk, h1, h2, rfl⟩
    · exact Or.inl ⟨hty, ps', by rw [collectKidsA_zero]; exact hrest, rfl⟩
    · simp at h1
  | succ f =>
    rw [collectKidsA_succ] at h
    obtain ⟨kid, rfl, hav, dict, hlk, hc⟩ :=
      collectKidsAGo_cons_inv _ _ _ _ _ _ h
    refine ⟨kid, rfl, hav, dict, hlk, ?_⟩
    rcases hc with ⟨hty, ps', hrest, rfl⟩ | ⟨hty, kk, ps₁, ps₂, hkk, h1, h2, rfl⟩
    · exact Or.inl ⟨hty, ps', by rw [collectKidsA_succ]; exact hrest, rfl⟩
    · exact Or.inr ⟨hty, f, kk, ps₁, ps₂, rfl, hkk, h1,
        by rw [collectKidsA_succ]; exact h2, rfl⟩

theorem collectKidsA_cons_page (objs : OMap) (avoid : Option ObjectId)
    (fuel : Nat) (kid : ObjectId) (rest : ObjList) (ps : List ObjectId)
    (dict : Dict)
    (hav : ¬ avoid = some kid)
    (hlk : alookup objs kid = some (.dictionary dict))
    (hty : dict.get bType = some (.name bPage))
    (hrest : collectKidsA objs avoid fuel rest = some ps) :
    collectKidsA objs avoid fuel (.cons (.reference kid) rest) =
      some (kid :: ps) := by
  cases fuel with
  | zero =>
    rw [collectKidsA_zero] at hrest ⊢
    exact collectKidsAGo_cons_page _ _ _ _ _ _ _ hav hlk hty hrest
  | succ f =>
    rw [collectKidsA_succ] at hrest ⊢
    exact collectKidsAGo_cons_page _ _ _ _ _ _ _ hav hlk hty hrest

theorem collectKidsA_cons_pages (objs : OMap) (avoid : Option ObjectId)
    (fuel' : Nat) (kid : ObjectId) (rest kk : ObjList)
    (ps₁ ps₂ : List ObjectId) (dict : Dict)
    (hav : ¬ avoid = some kid)
    (hlk : alookup objs kid = some (.dictionary dict))
    (hty : dict.get bType = some (.name bPages))
    (hkk : dict.get bKids = some (.array kk))
    (h1 : collectKidsA objs avoid fuel' kk = some ps₁)
    (h2 : collectKidsA objs avoid (fuel' + 1) rest = some ps₂) :
    collectKidsA objs avoid (fuel' + 1) (.cons (.reference kid) rest) =
      some (ps₁ ++ ps₂) := by
  rw [collectKidsA_succ] at h2 ⊢
  exact collectKidsAGo_cons_pages _ _ _ _ _ _ _ _ _ hav hlk hty hkk h1 h2

theorem collectKidsA_mono (objs : OMap) (avoid : Option ObjectId) :
    ∀ (n : Nat) (kids : ObjList) (mm : Nat) (ps : List ObjectId),
      n ≤ mm → collectKidsA objs avoid n kids = some ps →
      collectKidsA objs avoid mm kids = some ps
  | n, .nil, mm, ps, _, h => by
    rw [collectKidsA_nil] at h
    cases h
    exact collectKidsA_nil objs avoid mm
  | n, .cons o rest, mm, ps, hle, h => by
    obtain ⟨kid, rfl, hav, dict, hlk, hcase⟩ :=
      collectKidsA_cons_inv _ _ _ _ _ _ h
    rcases hcase with ⟨hty, ps', hrest, rfl⟩ |
        ⟨hty, fuel', kk, ps₁, ps₂, rfl, hkk, h1, h2, rfl⟩
    · exact collectKidsA_cons_page objs avoid mm kid rest ps' dict hav hlk hty
        (collectKidsA_mono objs avoid n rest mm ps' hle hrest)
    · obtain ⟨mm', rfl⟩ : ∃ mm', mm = mm' + 1 := ⟨mm - 1, by omega⟩
      exact collectKidsA_cons_pages objs avoid mm' kid rest kk ps₁ ps₂ dict hav
        hlk hty hkk
        (collectKidsA_mono objs avoid fuel' kk mm' ps₁ (by omega) h1)
        (collectKidsA_mono objs avoid (fuel' + 1) rest (mm' + 1) ps₂ (by omega) h2)
  termination_by n kids _ _ => (n, sizeOf kids)
  decreasing_by
    all_goals simp_wf
    all_goals subst_vars
    all_goals first
      | (apply Prod.Lex.left
         omega)
      | (apply Prod.Lex.right
         simp
         try omega)

theorem collectKidsAGo_refine (objs : OMap) (avoid : Option ObjectId)
    (deeperA : ObjList → Option (List ObjectId))
    (deeperL : ObjList → List ObjectId)
    (hd : ∀ kk qs, deeperA kk = some qs → deeperL kk = qs) :
    ∀ (kids : ObjList) (ps : List ObjectId),
      collectKidsAGo objs avoid deeperA kids = some ps →
      collectKidsLGo objs deeperL kids = ps
  | .nil, ps, h => by
    simp [collectKidsAGo] at h
    subst h
    simp [collectKidsLGo]
  | .cons o rest, ps, h => by
    obtain ⟨kid, rfl, hav, dict, hlk, hcase⟩ :=
      collectKidsAGo_cons_inv _ _ _ _ _ _ h
    rcases hcase with ⟨hty, ps', hrest, rfl⟩ |
        ⟨hty, kk, ps₁, ps₂, hkk, h1, h2, rfl⟩
    · have := collectKidsAGo_refine objs avoid deeperA deeperL hd rest ps' hrest
      simp [collectKidsLGo, hlk, hty, this]
    · have hk := hd kk ps₁ h1
      have hr := collectKidsAGo_refine objs avoid deeperA deeperL hd rest ps₂ h2
      simp [collectKidsLGo, hlk, hty, hkk, hk, hr, bPages_ne_bPage]

theorem collectKidsA_refine (objs : OMap) (avoid : Option ObjectId) :
    ∀ (n : Nat) (kids : ObjList) (ps : List ObjectId),
      collectKidsA objs avoid n kids = some ps →
      collectKidsL objs n kids = ps := by
  intro n
  induction n with
  | zero =>
    intro kids ps h
    rw [collectKidsA_zero] at h
    rw [collectKidsL_zero]
    exact collectKidsAGo_refine objs avoid _ _
      (fun kk qs hq => by simp at hq) kids ps h
  | succ f ih =>
    intro kids ps h
    rw [collectKidsA_succ] at h
    rw [collectKidsL_succ]
    exact collectKidsAGo_refine objs avoid _ _
      (fun kk qs hq => ih kk qs hq) kids ps h

theorem collectKidsA_transfer (objsA objsB : OMap) (avoid : Option ObjectId)
    (hag : ∀ kid v, ¬ avoid = some kid →
      alookup objsA kid = some v → alookup objsB kid = some v) :
    ∀ (n : Nat) (kids : ObjList) (ps : List ObjectId),
      collectKidsA objsA avoid n kids = some ps →
      collectKidsA objsB avoid n kids = some ps
  | n, .nil, ps, h => by
    rw [collectKidsA_nil] at h
    cases h
    exact collectKidsA_nil objsB avoid n
  | n, .cons o rest, ps, h => by
    obtain ⟨kid, rfl, hav, dict, hlk, hcase⟩ :=
      collectKidsA_cons_inv _ _ _ _ _ _ h
    have hlkB := hag kid _ hav hlk
    rcases hcase with ⟨hty, ps', hrest, rfl⟩ |
        ⟨hty, fuel', kk, ps₁, ps₂, rfl, hkk, h1, h2, rfl⟩
    · exact collectKidsA_cons_page objsB avoid n kid rest ps' dict hav hlkB hty
        (collectKidsA_transfer objsA objsB avoid hag n rest ps' hrest)
    · exact collectKidsA_cons_pages objsB avoid fuel' kid rest kk ps₁ ps₂ dict
        hav hlkB hty hkk
        (collectKidsA_transfer objsA objsB avoid hag fuel' kk ps₁ h1)
        (collectKidsA_transfer objsA objsB avoid hag (fuel' + 1) rest ps₂ h2)
  termination_by n kids _ => (n, sizeOf kids)
  decreasing_by
    all_goals simp_wf
    all_goals subst_vars
    all_goals first
      | (apply Prod.Lex.left
         omega)
      | (apply Prod.Lex.right
         simp
         try omega)

theorem collectKidsA_append (objs : OMap) (avoid : Option ObjectId) :
    ∀ (n : Nat) (k₁ k₂ : ObjList) (p₁ p₂ : List ObjectId),
      collectKidsA objs avoid n k₁ = some p₁ →
      collectKidsA objs avoid n k₂ = some p₂ →
      collectKidsA objs avoid n (k₁ ++ k₂) = some (p₁ ++ p₂)
  | n, .nil, k₂, p₁, p₂, h1, h2 => by
    rw [collectKidsA_nil] at h1
    cases h1
    rw [ObjList.nil_app]
    simpa using h2
  | n, .cons o rest, k₂, p₁, p₂, h1, h2 => by
    obtain ⟨kid, rfl, hav, dict, hlk, hcase⟩ :=
      collectKidsA_cons_inv _ _ _ _ _ _ h1
    rw [ObjList.cons_app]
    rcases hcase with ⟨hty, ps', hrest, rfl⟩ |
        ⟨hty, fuel', kk, ps₁, ps₂, rfl, hkk, hk1, hk2, rfl⟩
    · rw [List.cons_append]
      exact collectKidsA_cons_page objs avoid n kid (rest ++ k₂) (ps' ++ p₂)
        dict hav hlk hty
        (collectKidsA_append objs avoid n rest k₂ ps' p₂ hrest h2)
    · rw [List.append_assoc]
      exact collectKidsA_cons_pages objs avoid fuel' kid (rest ++ k₂) kk ps₁
        (ps₂ ++ p₂) dict hav hlk hty hkk hk1
        (collectKidsA_append objs avoid (fuel' + 1) rest k₂ ps₂ p₂ hk2 h2)
  termination_by n k₁ _ _ _ => (n, sizeOf k₁)
  decreasing_by
    all_goals simp_wf
    all_goals subst_vars
    all_goals first
      | (apply Prod.Lex.left
         omega)
      | (apply Prod.Lex.right
         simp
         try omega)

theorem collectKidsA_mem (objs : OMap) (avoid : Option ObjectId) :
    ∀ (n : Nat) (kids : ObjList) (ps : List ObjectId),
      collectKidsA objs avoid n kids = some ps →
      ∀ p ∈ ps, ∃ dict, alookup objs p = some (.dictionary dict) ∧
        dict.get bType = some (.name bPage)
  | n, .nil, ps, h => by
    rw [collectKidsA_nil] at h
    cases h
    intro p hp
    simp at hp
  | n, .cons o rest, ps, h => by
    obtain ⟨kid, rfl, hav, dict, hlk, hcase⟩ :=
      collectKidsA_cons_inv _ _ _ _ _ _ h
    rcases hcase with ⟨hty, ps', hrest, rfl⟩ |
        ⟨hty, fuel', kk, ps₁, ps₂, rfl, hkk, h1, h2, rfl⟩
    · intro p hp
      rcases List.mem_cons.mp hp with rfl | hp'
      · exact ⟨dict, hlk, hty⟩
      · exact collectKidsA_mem objs avoid n rest ps' hrest p hp'
    · intro p hp
      rcases List.mem_append.mp hp with hp' | hp'
      · exact collectKidsA_mem objs avoid fuel' kk ps₁ h1 p hp'
      · exact collectKidsA_mem objs avoid (fuel' + 1) rest ps₂ h2 p hp'
  termination_by n kids _ => (n, sizeOf kids)
  decreasing_by
    all_goals simp_wf
    all_goals subst_vars
    all_goals first
      | (apply Prod.Lex.left
         omega)
      | (apply Prod.Lex.right
         simp
         try omega)

theorem collectKidsA_pageRefs (objs : OMap) (avoid : Option ObjectId) :
    ∀ (ns : List ObjectId) (n : Nat),
      (∀ nid ∈ ns, ¬ avoid = some nid ∧
        ∃ dict, alookup objs nid = some (.dictionary dict) ∧
          dict.get bType = some (.name bPage)) →
      collectKidsA objs avoid n (ObjList.ofList (ns.map Object.reference)) =
        some ns := by
  intro ns
  induction ns with
  | nil => intro n _; exact collectKidsA_nil objs avoid n
  | cons nid rest ih =>
    intro n hall
    obtain ⟨hav, dict, hlk, hty⟩ := hall nid (List.mem_cons_self _ _)
    have hrest := ih n (fun q hq => hall q (List.mem_cons_of_mem _ hq))
    simpa using collectKidsA_cons_page objs avoid n nid
      (ObjList.ofList (rest.map Object.reference)) rest dict hav hlk hty hrest

theorem collectKidsLGo_mem (objs : OMap) (deeper : ObjList → List ObjectId)
    (hd : ∀ kk q, q ∈ deeper kk →
      ∃ dict, alookup objs q = some (.dictionary dict)) :
    ∀ (kids : ObjList) (p : ObjectId),
      p ∈ collectKidsLGo objs deeper kids →
      ∃ dict, alookup objs p = some (.dictionary dict)
  | .nil, p, h => by simp [collectKidsLGo] at h
  | .cons o rest, p, h => by
    cases o
    case reference kid =>
      simp only [collectKidsLGo] at h
      rcases List.mem_append.mp h with h' | h'
      · split at h'
        · rename_i dict hlk
          split at h'
          · rename_i t hty
            by_cases ht1 : t = bPage
            · rw [if_pos ht1] at h'
              simp only [List.mem_singleton] at h'
              subst h'
              exact ⟨dict, hlk⟩
            · by_cases ht2 : t = bPages
              · rw [if_neg ht1, if_pos ht2] at h'
                split at h'
                · rename_i kk hkk
                  exact hd kk p h'
                · simp at h'
              · rw [if_neg ht1, if_neg ht2] at h'
                simp at h'
          · simp at h'
        · simp at h'
      · exact collectKidsLGo_mem objs deeper hd rest p h'
    all_goals
      simp only [collectKidsLGo, List.nil_append] at h
      exact collectKidsLGo_mem objs deeper hd rest p h

theorem collectKidsL_mem (objs : OMap) :
    ∀ (n : Nat) (kids : ObjList) (p : ObjectId),
      p ∈ collectKidsL objs n kids →
      ∃ dict, alookup objs p = some (.dictionary dict) := by
  intro n
  induction n with
  | zero =>
    intro kids p h
    rw [collectKidsL_zero] at h
    exact collectKidsLGo_mem objs _ (fun kk q hq => by simp at hq) kids p h
  | succ f ih =>
    intro kids p h
    rw [collectKidsL_succ] at h
    exact collectKidsLGo_mem objs _ (fun kk q hq => ih kk q hq) kids p h

/-! ### The merge step: identifier bookkeeping -/

theorem spliceAll_keys (m : IdMap) :
    ∀ (pages : List ObjectId) (d d' : Document),
      spliceAll m d pages = .ok d' →
      d'.trailer = d.trailer ∧ d'.maxId = d.maxId ∧
      akeys d'.objects = akeys d.objects := by
  intro pages
  induction pages with
  | nil =>
    intro d d' h
    cases h
    exact ⟨rfl, rfl, rfl⟩
  | cons p ps ih =>
    intro d d' h
    cases hmp : alookup m p with
    | none =>
      simp only [spliceAll, hmp] at h
      exact ih d d' h
    | some nid =>
      cases hso : spliceOne d nid with
      | error e =>
        simp only [spliceAll, hmp, hso] at h
        exact absurd h (by simp)
      | ok dmid =>
        simp only [spliceAll, hmp, hso] at h
        obtain ⟨htr, hmax, hkeys, _⟩ := spliceOne_cases d nid dmid hso
        obtain ⟨htr', hmax', hkeys'⟩ := ih dmid d' h
        exact ⟨by rw [htr', htr], by rw [hmax', hmax], by rw [hkeys', hkeys]⟩

theorem stampObjs_length : ∀ (l : List (ObjectId × Object)) (mid : Nat),
    (stampObjs mid l).length = l.length := by
  intro l
  induction l with
  | nil => intro mid; rfl
  | cons hd rest ih =>
    intro mid
    obtain ⟨k, v⟩ := hd
    simp only [stampObjs, List.length_cons, ih (mid + 1)]

theorem stampObjs_keys_num (l : List (ObjectId × Object)) (mid : Nat)
    (x : ObjectId) (h : x ∈ akeys (stampObjs mid l)) :
    mid < x.1 ∧ x.1 ≤ mid + l.length := by
  rcases List.mem_map.mp h with ⟨p, hp, hfst⟩
  obtain ⟨h1, h2, _⟩ := stampObjs_mem l mid p hp
  rw [← hfst]
  exact ⟨h1, h2⟩

theorem akeys_num_le (d : Document) (hnums : keyNumsLeB d = true)
    (x : ObjectId) (h : x ∈ akeys d.objects) : x.1 ≤ d.maxId := by
  rcases List.mem_map.mp h with ⟨p, hp, hfst⟩
  rw [← hfst]
  exact (keyNumsLe_iff d).mp hnums p hp

/-- Everything `mergeStep` does to the identifier bookkeeping, given only
I2-style hypotheses: the new `max_id`, an unchanged trailer, and the merged
key list — the base keys followed by the freshly minted keys. -/
theorem mergeStep_keys (base src merged : Document)
    (hok : mergeStep base src = .ok merged)
    (hnums : keyNumsLeB base = true)
    (hnodups : (akeys src.objects).Nodup)
    (hbound : base.maxId + src.objects.length < U32) :
    merged.maxId = base.maxId + src.objects.length ∧
    merged.trailer = base.trailer ∧
    akeys merged.objects =
      akeys base.objects ++ akeys (stampObjs base.maxId src.objects) := by
  have hnums' := (keyNumsLe_iff base).mp hnums
  have hcp := copyPh_closed src.objects base.objects [] base.maxId hnums'
    (by intro k hk; simp [akeys] at hk) hnodups hbound
  rw [List.nil_append] at hcp
  simp only [mergeStep, hcp] at hok
  split at hok
  · rename_i d2 hsp
    cases hok
    obtain ⟨htr, hmax, hkeys⟩ := spliceAll_keys _ _ _ _ hsp
    refine ⟨rfl, htr, ?_⟩
    rw [hkeys]
    show akeys (updPh _ _ _) = _
    rw [updPh_keys, akeys_append]
  · exact absurd hok (by simp)

theorem akeys_length {α : Type} (l : List (ObjectId × α)) :
    (akeys l).length = l.length := by simp [akeys]

/-- `mergeStep` keeps the identifier invariants: the merged keys stay
duplicate-free and bounded by the persisted `max_id`, which advances by
the source arena size. -/
theorem mergeStep_wf (base src merged : Document)
    (hok : mergeStep base src = .ok merged)
    (hnd : (akeys base.objects).Nodup)
    (hnums : keyNumsLeB base = true)
    (hsnd : (akeys src.objects).Nodup)
    (hbound : base.maxId + src.objects.length < U32) :
    (akeys merged.objects).Nodup ∧ keyNumsLeB merged = true ∧
    merged.maxId = base.maxId + src.objects.length ∧
    merged.trailer = base.trailer := by
  obtain ⟨hmax, htr, hkeys⟩ := mergeStep_keys base src merged hok hnums hsnd hbound
  refine ⟨?_, ?_, hmax, htr⟩
  · rw [hkeys]
    refine List.Nodup.append hnd (stampObjs_keys_nodup _ _) ?_
    intro x hx hx'
    have h1 := akeys_num_le base hnums x hx
    have h2 := (stampObjs_keys_num _ _ x hx').1
    omega
  · rw [keyNumsLe_iff]
    intro p hp
    have hpk : p.1 ∈ akeys merged.objects := List.mem_map_of_mem Prod.fst hp
    rw [hkeys] at hpk
    rw [hmax]
    rcases List.mem_append.mp hpk with hb | hs
    · have := akeys_num_le base hnums p.1 hb
      omega
    · have := (stampObjs_keys_num _ _ p.1 hs).2
      omega

/-- The merge fold keeps the identifier invariants along any prefix within
the u32 head-room. -/
theorem mergeFold_wf :
    ∀ (rest : List Document) (base merged : Document),
      mergeFold base rest = .ok merged →
      (akeys base.objects).Nodup →
      keyNumsLeB base = true →
      (∀ d ∈ rest, (akeys d.objects).Nodup) →
      base.maxId + (rest.map (fun s => s.objects.length)).sum < U32 →
      (akeys merged.objects).Nodup ∧ keyNumsLeB merged = true ∧
      merged.maxId = base.maxId + (rest.map (fun s => s.objects.length)).sum := by
  intro rest
  induction rest with
  | nil =>
    intro base merged h hnd hnums _ _
    cases h
    simpa using ⟨hnd, hnums⟩
  | cons src rest ih =>
    intro base merged h hnd hnums hall hbound
    simp only [List.map_cons, List.sum_cons] at hbound ⊢
    cases hstep : mergeStep base src with
    | error e =>
      simp only [mergeFold, hstep] at h
      exact absurd h (by simp)
    | ok b' =>
      simp only [mergeFold, hstep] at h
      obtain ⟨hnd', hnums', hmax', _⟩ := mergeStep_wf base src b' hstep hnd hnums
        (hall src (List.mem_cons_self _ _)) (by omega)
      obtain ⟨hnd'', hnums'', hmax''⟩ := ih b' merged h hnd' hnums'
        (fun d hd => hall d (List.mem_cons_of_mem _ hd)) (by rw [hmax']; omega)
      exact ⟨hnd'', hnums'', by rw [hmax'', hmax']; omega⟩

/-- `mergeStep` keeps invariant I1: when base and source each resolve all
their references, so does the merged graph. -/
theorem mergeStep_resolves (base src merged : Document)
    (hok : mergeStep base src = .ok merged)
    (hnd : (akeys base.objects).Nodup)
    (hnums : keyNumsLeB base = true)
    (hres : refsResolveB base = true)
    (hsnd : (akeys src.objects).Nodup)
    (hsres : refsResolveB src = true)
    (hbound : base.maxId + src.objects.length < U32) :
    refsResolveB merged = true := by
  have hndm : (akeys merged.objects).Nodup :=
    (mergeStep_wf base src merged hok hnd hnums hsnd hbound).1
  have hnums' := (keyNumsLe_iff base).mp hnums
  have hcp := copyPh_closed src.objects base.objects [] base.maxId hnums'
    (by intro k hk; simp [akeys] at hk) hsnd hbound
  rw [List.nil_append] at hcp
  simp only [mergeStep, hcp] at hok
  set m := stampMap base.maxId src.objects with hm
  set stamped := stampObjs base.maxId src.objects with hstamped
  set objs₁ := base.objects ++ stamped with hobjs₁
  set objs₂ := updPh m objs₁ m with hobjs₂
  split at hok
  · rename_i d2 hsp
    cases hok
    have hvalsnd : (m.map Prod.snd).Nodup := by
      rw [hm, stampMap_vals_eq_keys]
      exact stampObjs_keys_nodup _ _
    have hvals_eq : m.map Prod.snd = akeys stamped := by
      rw [hm, hstamped]
      exact stampMap_vals_eq_keys _ _
    have hlook₂ := updPh_lookup m m objs₁ hvalsnd
    have hkeys₂ : akeys objs₂ = akeys base.objects ++ akeys stamped := by
      rw [hobjs₂, updPh_keys, hobjs₁, akeys_append]
    have hbasesmall : ∀ x : ObjectId, x ∈ akeys base.objects → x.1 ≤ base.maxId :=
      akeys_num_le base hnums
    have hstampbig : ∀ x : ObjectId, x ∈ akeys stamped → base.maxId < x.1 := by
      intro x hx
      rw [hstamped] at hx
      exact (stampObjs_keys_num _ _ x hx).1
    have hmemm : ∀ p nid, alookup m p = some nid → nid ∈ akeys objs₂ := by
      intro p nid hp
      rw [hkeys₂]
      refine List.mem_append.mpr (Or.inr ?_)
      rw [← hvals_eq]
      exact List.mem_map_of_mem Prod.snd (alookup_mem hp)
    have hres₂ : ∀ x o, alookup objs₂ x = some o →
        ∀ r ∈ refsOfO o, r ∈ akeys objs₂ := by
      intro x o hx r hr
      rw [hlook₂ x] at hx
      rw [hkeys₂]
      by_cases hxm : x ∈ m.map Prod.snd
      · rw [if_pos hxm] at hx
        cases hl₁ : alookup objs₁ x with
        | none => rw [hl₁] at hx; simp at hx
        | some o₀ =>
          rw [hl₁] at hx
          simp only [Option.map_some'] at hx
          have ho : o = updO m o₀ := by
            cases hx
            rfl
          subst ho
          have hxbig : base.maxId < x.1 := by
            rw [hvals_eq] at hxm
            exact hstampbig x hxm
          have hbasenone : alookup base.objects x = none := by
            rw [alookup_eq_none_iff]
            intro hmem
            have := hbasesmall x hmem
            omega
          rw [hobjs₁, alookup_append_right _ hbasenone] at hl₁
          obtain ⟨k, hk⟩ := stampObjs_lookup_src src.objects base.maxId x o₀
            (by rw [← hstamped]; exact hl₁)
          rw [refsOfO_updO] at hr
          rcases List.mem_map.mp hr with ⟨r₀, hr₀, rfl⟩
          have hr₀res := (refsResolve_iff src).mp hsres (k, o₀) hk r₀ hr₀
          obtain ⟨v, hv⟩ := Option.isSome_iff_exists.mp hr₀res
          obtain ⟨nid, hmr, hsv, _, _, _⟩ :=
            stamp_lookup src.objects base.maxId r₀ v hsnd hv
          rw [← hm] at hmr
          have hremap : remapF m r₀ = nid := by
            rw [remapF, hmr]
            rfl
          rw [hremap]
          refine List.mem_append.mpr (Or.inr ?_)
          rw [hstamped]
          exact List.mem_map_of_mem Prod.fst (alookup_mem hsv)
      · rw [if_neg hxm] at hx
        cases hbl : alookup base.objects x with
        | some ob =>
          rw [hobjs₁, alookup_append_left _ hbl] at hx
          injection hx with ho
          subst ho
          have := (refsResolve_iff base).mp hres (x, ob) (alookup_mem hbl) r hr
          refine List.mem_append.mpr (Or.inl ?_)
          exact (alookup_isSome_iff base.objects r).mp this
        | none =>
          rw [hobjs₁, alookup_append_right _ hbl] at hx
          exact absurd (by
            rw [hvals_eq]
            exact List.mem_map_of_mem Prod.fst (alookup_mem hx)) hxm
    obtain ⟨hresd, hkeysd, _, _⟩ := spliceAll_resolves m (getPages src)
      { base with objects := objs₂ } d2 hsp hmemm hres₂
    rw [refsResolve_iff]
    intro p hp r hr
    have hpl : alookup d2.objects p.1 = some p.2 :=
      mem_alookup_of_nodup hndm hp
    have := hresd p.1 p.2 hpl r hr
    exact (alookup_isSome_iff d2.objects r).mpr this
  · exact absurd hok (by simp)

/-- The merge fold keeps invariant I1 along any prefix within the u32
head-room. -/
theorem mergeFold_resolves :
    ∀ (rest : List Document) (base merged : Document),
      mergeFold base rest = .ok merged →
      (akeys base.objects).Nodup →
      keyNumsLeB base = true →
      refsResolveB base = true →
      (∀ d ∈ rest, (akeys d.objects).Nodup) →
      (∀ d ∈ rest, refsResolveB d = true) →
      base.maxId + (rest.map (fun s => s.objects.length)).sum < U32 →
      refsResolveB merged = true := by
  intro rest
  induction rest with
  | nil =>
    intro base merged h _ _ hres _ _ _
    cases h
    exact hres
  | cons src rest ih =>
    intro base merged h hnd hnums hres hall hresall hbound
    simp only [List.map_cons, List.sum_cons] at hbound
    cases hstep : mergeStep base src with
    | error e =>
      simp only [mergeFold, hstep] at h
      exact absurd h (by simp)
    | ok b' =>
      simp only [mergeFold, hstep] at h
      have hb : base.maxId + src.objects.length < U32 := by omega
      obtain ⟨hnd', hnums', hmax', _⟩ := mergeStep_wf base src b' hstep hnd hnums
        (hall src (List.mem_cons_self _ _)) hb
      have hres' := mergeStep_resolves base src b' hstep hnd hnums hres
        (hall src (List.mem_cons_self _ _))
        (hresall src (List.mem_cons_self _ _)) hb
      exact ih b' merged h hnd' hnums' hres'
        (fun d hd => hall d (List.mem_cons_of_mem _ hd))
        (fun d hd => hresall d (List.mem_cons_of_mem _ hd))
        (by rw [hmax']; omega)

/-- C2: after `merge_pdfs` over any number of sources — including a
document merged with a copy of itself — the merged arena keeps
pairwise-unique object identifiers with `max_id` at least every live
object number, and the remap table minted by each copy loop is injective:
its fresh ids are pairwise distinct and distinct from every pre-existing
base id.  Granted: unique in-range ids in every input and a combined
size below the u32 wrap. -/
theorem merge_ids_unique (docs : List Document) (merged : Document)
    (hok : merge_pdfs docs = .ok merged)
    (hnd : ∀ d ∈ docs, (akeys d.objects).Nodup)
    (hnums : ∀ d ∈ docs, keyNumsLeB d = true)
    (hbound : mergeBound docs < U32) :
    ((akeys merged.objects).Nodup ∧ keyNumsLeB merged = true) ∧
    (∀ base src : Document, keyNumsLeB base = true →
      (akeys src.objects).Nodup →
      base.maxId + src.objects.length < U32 →
      ∀ objs₁ m mid',
        copyPh base.objects [] base.maxId src.objects = (objs₁, m, mid') →
        (m.map Prod.snd).Nodup ∧
        (∀ nid ∈ m.map Prod.snd, nid ∉ akeys base.objects) ∧
        mid' = base.maxId + src.objects.length) := by
  constructor
  · cases docs with
    | nil => simp [merge_pdfs] at hok
    | cons d rest =>
      cases rest with
      | nil =>
        simp only [merge_pdfs] at hok
        cases hok
        exact ⟨hnd merged (List.mem_cons_self _ _),
          hnums merged (List.mem_cons_self _ _)⟩
      | cons e rest' =>
        simp only [merge_pdfs] at hok
        simp only [mergeBound] at hbound
        obtain ⟨h1, h2, _⟩ := mergeFold_wf (e :: rest') d merged hok
          (hnd d (List.mem_cons_self _ _)) (hnums d (List.mem_cons_self _ _))
          (fun x hx => hnd x (List.mem_cons_of_mem _ hx)) hbound
        exact ⟨h1, h2⟩
  · intro base src hb hsnd hbd objs₁ m mid' hcp
    rw [copyPh_closed src.objects base.objects [] base.maxId
      ((keyNumsLe_iff base).mp hb)
      (by intro k hk; simp [akeys] at hk) hsnd hbd] at hcp
    rw [List.nil_append] at hcp
    injection hcp with h₁ h₂
    injection h₂ with hm hmid
    subst hm
    refine ⟨?_, ?_, hmid.symm⟩
    · rw [stampMap_vals_eq_keys]
      exact stampObjs_keys_nodup _ _
    · intro nid hnid hmem
      rw [stampMap_vals_eq_keys] at hnid
      have h1 := (stampObjs_keys_num _ _ nid hnid).1
      have h2 := akeys_num_le base hb nid hmem
      omega

theorem merge_ids_unique_witness :
    (merge_pdfs [docA, docA] = .ok mergedAA ∧
      (∀ d ∈ [docA, docA], (akeys d.objects).Nodup) ∧
      (∀ d ∈ [docA, docA], keyNumsLeB d = true) ∧
      mergeBound [docA, docA] < U32) ∧
    ((akeys mergedAA.objects).Nodup ∧ keyNumsLeB mergedAA = true) :=
  ⟨⟨rfl, by decide, by decide, by decide⟩,
    (merge_ids_unique [docA, docA] mergedAA rfl (by decide) (by decide)
      (by decide)).1⟩

/-- C3: granted I1 (and unique, in-range ids) in the base and every
source, and a combined size below the u32 wrap, every reference in the
merged graph resolves to a live object of that same graph; and the
rewriting mechanism is exactly the remap table — a reference whose target
has a table entry is rewritten to the entry's fresh id, and a reference
whose target has none is left unchanged. -/
theorem merge_no_dangling (docs : List Document) (merged : Document)
    (hok : merge_pdfs docs = .ok merged)
    (hnd : ∀ d ∈ docs, (akeys d.objects).Nodup)
    (hnums : ∀ d ∈ docs, keyNumsLeB d = true)
    (hres : ∀ d ∈ docs, refsResolveB d = true)
    (hbound : mergeBound docs < U32) :
    refsResolveB merged = true ∧
    (∀ (m : IdMap) (r n : ObjectId), alookup m r = some n →
      updO m (.reference r) = .reference n) ∧
    (∀ (m : IdMap) (r : ObjectId), alookup m r = none →
      updO m (.reference r) = .reference r) := by
  refine ⟨?_, updO_reference_mem, updO_reference_not_mem⟩
  cases docs with
  | nil => simp [merge_pdfs] at hok
  | cons d rest =>
    cases rest with
    | nil =>
      simp only [merge_pdfs] at hok
      cases hok
      exact hres merged (List.mem_cons_self _ _)
    | cons e rest' =>
      simp only [merge_pdfs] at hok
      simp only [mergeBound] at hbound
      exact mergeFold_resolves (e :: rest') d merged hok
        (hnd d (List.mem_cons_self _ _)) (hnums d (List.mem_cons_self _ _))
        (hres d (List.mem_cons_self _ _))
        (fun x hx => hnd x (List.mem_cons_of_mem _ hx))
        (fun x hx => hres x (List.mem_cons_of_mem _ hx)) hbound

theorem merge_no_dangling_witness :
    (merge_pdfs [docA, docA] = .ok mergedAA ∧
      (∀ d ∈ [docA, docA], refsResolveB d = true) ∧
      mergeBound [docA, docA] < U32) ∧
    refsResolveB mergedAA = true :=
  ⟨⟨rfl, by decide, by decide⟩,
    (merge_no_dangling [docA, docA] mergedAA rfl (by decide) (by decide)
      (by decide) (by decide)).1⟩

/-! ### Merging valid documents: the page order -/

/-- On a document whose catalog chain and strict walk succeed, the codec
page walk returns exactly the strict walk's pages. -/
theorem valid_getPages (d : Document)
    (rid pid : ObjectId) (cat pd : Dict) (kids : ObjList) (ps : List ObjectId)
    (hroot : d.trailer.get bRoot = some (.reference rid))
    (hcat : alookup d.objects rid = some (.dictionary cat))
    (hpages : cat.get bPages = some (.reference pid))
    (hpd : alookup d.objects pid = some (.dictionary pd))
    (hkids : pd.get bKids = some (.array kids))
    (hwalk : collectKidsA d.objects (some pid) d.objects.length kids = some ps) :
    getPages d = ps := by
  simp only [getPages, pageTreeRoot, hroot, hcat, hpages, hpd, hkids]
  exact collectKidsA_refine d.objects (some pid) _ kids ps hwalk

/-- One merge step on valid documents: the result is valid, its page list
is the base pages followed by the source pages remapped through the fresh
copy table, and `max_id` advances by the source arena size. -/
theorem mergeStep_strong (base src merged : Document)
    (hok : mergeStep base src = .ok merged)
    (hvb : ValidDoc base) (hvs : ValidDoc src)
    (hbound : base.maxId + src.objects.length < U32) :
    ValidDoc merged ∧
    getPages merged = getPages base ++
      (getPages src).map (remapF (stampMap base.maxId src.objects)) ∧
    merged.maxId = base.maxId + src.objects.length := by
  obtain ⟨rid, cat, pid, pd, kids, ps, hroot, hcat, hpages, hpd, hkids, hwalk,
    hndb, hnumsb, hresb⟩ := hvb
  obtain ⟨rids, cats, pids, pds, kidss, pss, hroots, hcats, hpagess, hpds,
    hkidss, hwalks, hnds, hnumss, hress⟩ := hvs
  obtain ⟨hndm, hnumsm, hmaxm, _⟩ :=
    mergeStep_wf base src merged hok hndb hnumsb hnds hbound
  have hresm := mergeStep_resolves base src merged hok hndb hnumsb hresb
    hnds hress hbound
  have hnums' := (keyNumsLe_iff base).mp hnumsb
  have hcp := copyPh_closed src.objects base.objects [] base.maxId hnums'
    (by intro k hk; simp [akeys] at hk) hnds hbound
  rw [List.nil_append] at hcp
  simp only [mergeStep, hcp] at hok
  set m := stampMap base.maxId src.objects with hm
  set stamped := stampObjs base.maxId src.objects with hstamped
  set objs₁ := base.objects ++ stamped with hobjs₁
  set objs₂ := updPh m objs₁ m with hobjs₂
  -- source pages
  have hpagesrc : getPages src = pss :=
    valid_getPages src rids pids cats pds kidss pss hroots hcats hpagess
      hpds hkidss hwalks
  have hpagebase : getPages base = ps :=
    valid_getPages base rid pid cat pd kids ps hroot hcat hpages hpd hkids hwalk
  have hsrcmem := collectKidsA_mem src.objects (some pids) _ kidss pss hwalks
  -- bookkeeping about objs₂
  have hvalsnd : (m.map Prod.snd).Nodup := by
    rw [hm, stampMap_vals_eq_keys]
    exact stampObjs_keys_nodup _ _
  have hvals_eq : m.map Prod.snd = akeys stamped := by
    rw [hm, hstamped]
    exact stampMap_vals_eq_keys _ _
  have hlook₂ := updPh_lookup m m objs₁ hvalsnd
  have hkeys₂ : akeys objs₂ = akeys base.objects ++ akeys stamped := by
    rw [hobjs₂, updPh_keys, hobjs₁, akeys_append]
  have hbasesmall : ∀ x : ObjectId, x ∈ akeys base.objects → x.1 ≤ base.maxId :=
    akeys_num_le base hnumsb
  have hstampbig : ∀ x : ObjectId, x ∈ akeys stamped → base.maxId < x.1 := by
    intro x hx
    rw [hstamped] at hx
    exact (stampObjs_keys_num _ _ x hx).1
  have hbaselook : ∀ x v, alookup base.objects x = some v →
      alookup objs₂ x = some v := by
    intro x v hx
    have hxs : x ∉ m.map Prod.snd := by
      rw [hvals_eq]
      intro hmem
      have h1 := hstampbig x hmem
      have h2 := hbasesmall x (List.mem_map_of_mem Prod.fst (alookup_mem hx))
      omega
    rw [hlook₂ x, if_neg hxs, hobjs₁]
    exact alookup_append_left _ hx
  have hcat₂ : alookup objs₂ rid = some (.dictionary cat) := hbaselook rid _ hcat
  have hpd₂ : alookup objs₂ pid = some (.dictionary pd) := hbaselook pid _ hpd
  -- every source page has a remap entry
  have hpm : ∀ p ∈ getPages src, (alookup m p).isSome = true := by
    intro p hp
    rw [hpagesrc] at hp
    obtain ⟨dp, hdp, _⟩ := hsrcmem p hp
    obtain ⟨nid, hnid, _, _, _, _⟩ :=
      stamp_lookup src.objects base.maxId p _ hnds hdp
    rw [← hm] at hnid
    rw [hnid]
    rfl
  -- run the splicing loop
  obtain ⟨objs', pd', hrun, hkeys', hoff, hat, hkidseq, hother, _⟩ :=
    spliceAll_spec m (getPages src) { base with objects := objs₂ } rid pid pd
      hpm hroot ⟨cat, hcat₂, hpages⟩ hpd₂ ⟨kids, hkids⟩
  split at hok
  · rename_i d2 hsp
    cases hok
    rw [hsp] at hrun
    injection hrun with hd2
    subst hd2
    -- arena sizes
    have hkeys'₂ : akeys objs' = akeys objs₂ := hkeys'
    have hlen₂ : objs₂.length = base.objects.length + src.objects.length := by
      have h := congrArg List.length hkeys₂
      rw [akeys_length, List.length_append, akeys_length, akeys_length] at h
      rw [h, hstamped, stampObjs_length]
    have hlen' : objs'.length = base.objects.length + src.objects.length := by
      have h := congrArg List.length hkeys'₂
      rw [akeys_length, akeys_length] at h
      rw [h, hlen₂]
    -- the strict walk over the original kids transfers from base to objs'
    have htrans : ∀ kid v, ¬ (some pid = some kid) →
        alookup base.objects kid = some v → alookup objs' kid = some v := by
      intro kid v hne hkid
      have hne' : ¬ kid = pid := by
        intro h
        exact hne (by rw [h])
      rw [hoff kid hne']
      exact hbaselook kid v hkid
    have hwalkbase : collectKidsA objs' (some pid) objs'.length kids = some ps := by
      have h1 := collectKidsA_transfer base.objects objs' (some pid) htrans
        base.objects.length kids ps hwalk
      exact collectKidsA_mono objs' (some pid) _ kids objs'.length ps
        (by omega) h1
    -- the new kids are live leaf pages
    have hmapped : ∀ nid ∈ (getPages src).map (remapF m),
        ¬ (some pid = some nid) ∧
        ∃ dict, alookup objs' nid = some (.dictionary dict) ∧
          dict.get bType = some (.name bPage) := by
      intro nid hnid
      rcases List.mem_map.mp hnid with ⟨p, hp, rfl⟩
      rw [hpagesrc] at hp
      obtain ⟨dp, hdp, hdptype⟩ := hsrcmem p hp
      obtain ⟨nid', hmp, hsv, hgt, _, _⟩ :=
        stamp_lookup src.objects base.maxId p _ hnds hdp
      rw [← hm] at hmp
      have hremap : remapF m p = nid' := by
        rw [remapF, hmp]
        rfl
      rw [hremap]
      have hne : ¬ (some pid = some nid') := by
        intro h
        injection h with h'
        have hpidsmall := hbasesmall pid
          (List.mem_map_of_mem Prod.fst (alookup_mem hpd))
        rw [← h'] at hgt
        omega
      have hninm : nid' ∈ m.map Prod.snd := by
        rw [hvals_eq, hstamped]
        exact List.mem_map_of_mem Prod.fst (alookup_mem hsv)
      have hbasenone : alookup base.objects nid' = none := by
        rw [alookup_eq_none_iff]
        intro hmem
        have := hbasesmall nid' hmem
        omega
      have hlook₁v : alookup objs₁ nid' = some (.dictionary dp) := by
        rw [hobjs₁, alookup_append_right _ hbasenone, hstamped]
        exact hsv
      have hnidpid : ¬ nid' = pid := by
        intro h
        exact hne (by rw [h])
      have hlookv : alookup objs' nid' = some (.dictionary (updD m dp)) := by
        rw [hoff nid' hnidpid]
        show alookup objs₂ nid' = _
        rw [hlook₂ nid', if_pos hninm, hlook₁v]
        rfl
      refine ⟨hne, updD m dp, hlookv, ?_⟩
      rw [Dict.get_updD, hdptype]
      rfl
    have hwalknew := collectKidsA_pageRefs objs' (some pid)
      ((getPages src).map (remapF m)) objs'.length hmapped
    have hwalkall := collectKidsA_append objs' (some pid) objs'.length kids
      (ObjList.ofList (((getPages src).map (remapF m)).map Object.reference))
      ps ((getPages src).map (remapF m)) hwalkbase hwalknew
    -- the page-tree root's new kids array
    have hkid' : pd'.get bKids = some (.array (kids ++
        ObjList.ofList (((getPages src).map (remapF m)).map Object.reference))) := by
      have h := hkidseq kids hkids
      rw [h]
      have hmm : (getPages src).map (fun p => Object.reference ((alookup m p).getD p))
          = ((getPages src).map (remapF m)).map Object.reference := by
        rw [List.map_map]
        rfl
      rw [hmm]
    -- the merged catalog chain
    have hcatm : ∃ catm, alookup objs' rid = some (.dictionary catm) ∧
        catm.get bPages = some (.reference pid) := by
      by_cases hrp : rid = pid
      · subst hrp
        refine ⟨pd', hat, ?_⟩
        rw [hother bPages bPages_ne_bKids bPages_ne_bCount]
        have hcp' : cat = pd := by
          rw [hcat] at hpd
          injection hpd with h1
          injection h1 with h2
        rw [← hcp']
        exact hpages
      · refine ⟨cat, ?_, hpages⟩
        rw [hoff rid hrp]
        exact hcat₂
    obtain ⟨catm, hcatm1, hcatm2⟩ := hcatm
    have hgp : getPages { { base with objects := objs' } with
        maxId := base.maxId + src.objects.length } =
        ps ++ (getPages src).map (remapF m) := by
      simp only [getPages, pageTreeRoot, hroot, hcatm1, hcatm2, hat, hkid']
      exact collectKidsA_refine objs' (some pid) _ _ _ hwalkall
    refine ⟨?_, ?_, hmaxm⟩
    · exact ⟨rid, catm, pid, pd',
        kids ++ ObjList.ofList (((getPages src).map (remapF m)).map Object.reference),
        ps ++ (getPages src).map (remapF m),
        hroot, hcatm1, hcatm2, hat, hkid', hwalkall, hndm, hnumsm, hresm⟩
    · rw [hgp, hpagebase]
  · exact absurd hok (by simp)

/-- The merge fold on valid documents: validity is preserved and the page
order accumulates one remapped block per source. -/
theorem mergeFold_strong :
    ∀ (rest : List Document) (base merged : Document),
      mergeFold base rest = .ok merged →
      ValidDoc base →
      (∀ d ∈ rest, ValidDoc d) →
      base.maxId + (rest.map (fun s => s.objects.length)).sum < U32 →
      ValidDoc merged ∧
      getPages merged = getPages base ++ (expectedOrder base.maxId rest).flatten ∧
      merged.maxId = base.maxId + (rest.map (fun s => s.objects.length)).sum := by
  intro rest
  induction rest with
  | nil =>
    intro base merged h hv _ _
    cases h
    exact ⟨hv, by simp [expectedOrder], by simp⟩
  | cons src rest ih =>
    intro base merged h hv hall hbound
    simp only [List.map_cons, List.sum_cons] at hbound ⊢
    cases hstep : mergeStep base src with
    | error e =>
      simp only [mergeFold, hstep] at h
      exact absurd h (by simp)
    | ok b' =>
      simp only [mergeFold, hstep] at h
      obtain ⟨hvb', hpages', hmax'⟩ := mergeStep_strong base src b' hstep hv
        (hall src (List.mem_cons_self _ _)) (by omega)
      obtain ⟨hvm, hpm, hmm⟩ := ih b' merged h hvb'
        (fun d hd => hall d (List.mem_cons_of_mem _ hd)) (by rw [hmax']; omega)
      refine ⟨hvm, ?_, by rw [hmm, hmax']; omega⟩
      rw [hpm, hpages', hmax']
      simp [expectedOrder, List.append_assoc]

theorem expectedOrder_length : ∀ (docs : List Document) (mid : Nat),
    (expectedOrder mid docs).flatten.length =
      (docs.map (fun d => (getPages d).length)).sum := by
  intro docs
  induction docs with
  | nil => intro mid; rfl
  | cons d rest ih =>
    intro mid
    simp [expectedOrder, ih (mid + d.objects.length)]

/-- C1: for every non-empty sequence of valid inputs within the u32
head-room, the merged page order is the first document's page order
followed, source by source in sequence order, by that source's page order
remapped onto its fresh copies, and the merged page count is the sum of
the inputs' page counts. -/
theorem merge_pages_concat (d₀ : Document) (rest : List Document)
    (merged : Document)
    (hok : merge_pdfs (d₀ :: rest) = .ok merged)
    (hvalid : ∀ d ∈ d₀ :: rest, ValidDoc d)
    (hbound : mergeBound (d₀ :: rest) < U32) :
    getPages merged = getPages d₀ ++ (expectedOrder d₀.maxId rest).flatten ∧
    (getPages merged).length =
      ((d₀ :: rest).map (fun d => (getPages d).length)).sum := by
  have hmain : getPages merged =
      getPages d₀ ++ (expectedOrder d₀.maxId rest).flatten := by
    cases rest with
    | nil =>
      simp only [merge_pdfs] at hok
      cases hok
      simp [expectedOrder]
    | cons d₁ rest' =>
      simp only [merge_pdfs] at hok
      simp only [mergeBound] at hbound
      exact (mergeFold_strong (d₁ :: rest') d₀ merged hok
        (hvalid d₀ (List.mem_cons_self _ _))
        (fun d hd => hvalid d (List.mem_cons_of_mem _ hd)) hbound).2.1
  refine ⟨hmain, ?_⟩
  rw [hmain, List.length_append, expectedOrder_length]
  simp

theorem docA_valid : ValidDoc docA :=
  ⟨(1, 0), .cons bPages (.reference (2, 0)) .nil, (2, 0),
    .cons bType (.name bPages)
      (.cons bKids (.array (.cons (.reference (3, 0)) .nil))
      (.cons bCount (.integer 1) .nil)),
    .cons (.reference (3, 0)) .nil, [(3, 0)],
    rfl, rfl, rfl, rfl, rfl, rfl, by decide, rfl, rfl⟩

theorem merge_pages_concat_witness :
    (merge_pdfs [docA, docA] = .ok mergedAA ∧
      mergeBound [docA, docA] < U32) ∧
    getPages mergedAA = getPages docA ++
      (expectedOrder docA.maxId [docA]).flatten ∧
    (getPages mergedAA).length =
      ([docA, docA].map (fun d => (getPages d).length)).sum :=
  ⟨⟨rfl, by decide⟩,
    merge_pages_concat docA [docA] mergedAA rfl
      (by
        intro d hd
        rcases List.mem_cons.mp hd with h | h
        · rw [h]
          exact docA_valid
        · rw [List.mem_singleton.mp h]
          exact docA_valid)
      (by decide)⟩

end PdfEngine
